import Mathlib

set_option maxHeartbeats 1000000
set_option maxRecDepth 4000

/-!
Verification development for the short-path MVP repository: a PostGIS/pgRouting
topology-construction pipeline (grid_lines → network_nodes → network_edges),
two materialized shortest-path views (mv_short_path via pgr_dijkstra,
mv_astar_path via pgr_aStar), and the Express backend handlers
(/update-route, /astar-route, /clear-*, /reset-all).

Coordinates are embedded as exact rationals.  PostGIS planar operations
(ST_ClosestPoint, ST_LineLocatePoint, ST_DWithin, the `<->` nearest operator)
are translated to exact rational arithmetic; squared distances are compared so
no square roots are needed.  ST_DistanceSphere (an external PostGIS geodesic
function, in meters) is kept as an explicit function parameter `d` of the edge
builder.  The pgRouting search functions are not part of the repository; they
are modelled from the spec (section 4.4) as an executable best-first search.
-/

/-- A 2D geometry point (SRID 4326) with exact rational coordinates:
`x` is the first (longitude) axis, `y` the second (latitude) axis. -/
structure Pt where
  x : ℚ
  y : ℚ
deriving DecidableEq, Repr

/-- Squared Euclidean distance in coordinate space (used for all planar
PostGIS distance comparisons, avoiding square roots). -/
def distSq (p q : Pt) : ℚ :=
  (p.x - q.x) * (p.x - q.x) + (p.y - q.y) * (p.y - q.y)

/-- Postgres `ROUND(x::numeric, 2)`: round to 2 decimal places, ties away
from zero. -/
def pgRound2 (q : ℚ) : ℚ :=
  if 0 ≤ q then ((⌊q * 100 + 1/2⌋ : ℤ) : ℚ) / 100
  else -(((⌊(-(q * 100)) + 1/2⌋ : ℤ) : ℚ) / 100)

/-- The proximity tolerance used by the pipeline (`ST_DWithin(..., 0.0001)`),
in degrees. -/
def epsTol : ℚ := 1 / 10000

/-- A row of the `network_edges` table.  `geomA`/`geomB` are the two points of
the edge geometry `ST_MakeLine(source_geom, target_geom)`. -/
structure EdgeRow where
  id : ℕ
  source : ℕ
  target : ℕ
  cost : ℚ
  reverse_cost : ℚ
  geomA : Pt
  geomB : Pt
deriving DecidableEq, Repr

/-- Step 8 of the pipeline, `SELECT DISTINCT ON (geom) * FROM network_nodes`:
keep one row per exactly-equal geometry (first occurrence), with the running
list of already-seen geometries made explicit. -/
def distinctOnGeomAux (seen : List Pt) : List Pt → List Pt
  | [] => []
  | p :: ps =>
    if p ∈ seen then distinctOnGeomAux seen ps
    else p :: distinctOnGeomAux (p :: seen) ps

/-- Node deduplication of step 8: one node per distinct exact geometry. -/
def distinctOnGeom (l : List Pt) : List Pt := distinctOnGeomAux [] l

/-- Clamped closest-point parameter of `p` on the segment from `a` to `b`
(0 at `a`, 1 at `b`); 0 for a degenerate segment. -/
def segParam (a b p : Pt) : ℚ :=
  let dx := b.x - a.x
  let dy := b.y - a.y
  let den := dx * dx + dy * dy
  if den = 0 then 0
  else
    let t := ((p.x - a.x) * dx + (p.y - a.y) * dy) / den
    if t < 0 then 0 else if 1 < t then 1 else t

/-- Point of the segment from `a` to `b` at parameter `t`. -/
def segPointAt (a b : Pt) (t : ℚ) : Pt :=
  ⟨a.x + t * (b.x - a.x), a.y + t * (b.y - a.y)⟩

/-- Closest point of `p` on the segment from `a` to `b`. -/
def segClosest (a b p : Pt) : Pt := segPointAt a b (segParam a b p)

/-- Consecutive-vertex segments of a LINESTRING given by its vertex list. -/
def segsOf : List Pt → List (Pt × Pt)
  | a :: b :: rest => (a, b) :: segsOf (b :: rest)
  | _ => []

/-- Best (minimum squared distance, earliest on ties) segment for `p`:
returns the segment index, the within-segment parameter and the closest
point.  `i` is the index of the first listed segment. -/
def bestSegAux (p : Pt) (i : ℕ) : List (Pt × Pt) → Option (ℕ × ℚ × Pt)
  | [] => none
  | ab :: rest =>
    match bestSegAux p (i + 1) rest with
    | none => some (i, segParam ab.1 ab.2 p, segClosest ab.1 ab.2 p)
    | some r =>
      if distSq p r.2.2 < distSq p (segClosest ab.1 ab.2 p) then some r
      else some (i, segParam ab.1 ab.2 p, segClosest ab.1 ab.2 p)

/-- ST_ClosestPoint of `p` on the line with vertex list `l` (none when the
vertex list has fewer than two points, which a LINESTRING never has). -/
def ST_ClosestPoint (l : List Pt) (p : Pt) : Option Pt :=
  (bestSegAux p 0 (segsOf l)).map (fun r => r.2.2)

/-- ST_LineLocatePoint of `p` on line `l`, as the chainage-normalized position
`(segment index + within-segment parameter) / segment count` (0 at the line's
start, 1 at its end).  The SQL function normalizes by arc length, which is
irrational; position along the line is strictly monotone in
(segment index, parameter), so this rational fraction orders the nodes of a
line exactly as the SQL one does, which is all the pipeline uses it for. -/
def ST_LineLocatePoint (l : List Pt) (p : Pt) : Option ℚ :=
  match bestSegAux p 0 (segsOf l) with
  | some (i, t, _) => some (((i : ℚ) + t) / ((segsOf l).length : ℚ))
  | none => none

/-- ST_DWithin(l, p, eps) for a line and a point: some segment of `l` has its
closest point to `p` within `eps` (compared on squared distances). -/
def ST_DWithin_line (l : List Pt) (p : Pt) (eps : ℚ) : Bool :=
  (segsOf l).any (fun ab => distSq p (segClosest ab.1 ab.2 p) ≤ eps * eps)

/-- A row of the `node_on_line` CTE of step 12. -/
structure NodeOnLine where
  node_id : ℕ
  node_geom : Pt
  fraction : ℚ
deriving DecidableEq, Repr

/-- The `node_on_line` CTE: nodes joined to a line by
`ST_DWithin(l, n, 0.0001)` and filtered by
`ST_Equals(n.geom, ST_ClosestPoint(l.geom, n.geom))`, with their
ST_LineLocatePoint fraction. -/
def node_on_line (l : List Pt) (nodes : List (ℕ × Pt)) : List NodeOnLine :=
  nodes.filterMap (fun r =>
    if ST_DWithin_line l r.2 epsTol && decide (ST_ClosestPoint l r.2 = some r.2) then
      (ST_LineLocatePoint l r.2).map (fun f => ⟨r.1, r.2, f⟩)
    else none)

/-- Ordering relation of the `ordered_nodes` CTE (`ORDER BY fraction`). -/
def fracLe (a b : NodeOnLine) : Prop := a.fraction ≤ b.fraction

instance : DecidableRel fracLe := fun a b => inferInstanceAs (Decidable (a.fraction ≤ b.fraction))

instance : IsTotal NodeOnLine fracLe := ⟨fun a b => le_total a.fraction b.fraction⟩

instance : IsTrans NodeOnLine fracLe := ⟨fun _ _ _ hab hbc => le_trans hab hbc⟩

/-- The `ordered_nodes` CTE: the nodes of a line sorted by fraction
(`ROW_NUMBER() OVER (PARTITION BY line_id ORDER BY fraction)`). -/
def ordered_nodes (l : List Pt) (nodes : List (ℕ × Pt)) : List NodeOnLine :=
  (node_on_line l nodes).insertionSort fracLe

/-- Consecutive pairs of a list (`n2.rn = n1.rn + 1` of the `node_pairs`
CTE). -/
def consecPairs {α : Type} : List α → List (α × α)
  | a :: b :: rest => (a, b) :: consecPairs (b :: rest)
  | _ => []

/-- The `node_pairs` CTE for one line: consecutive pairs of its ordered
nodes. -/
def node_pairs (l : List Pt) (nodes : List (ℕ × Pt)) : List (NodeOnLine × NodeOnLine) :=
  consecPairs (ordered_nodes l nodes)

/-- One row of the step-12 INSERT for a node pair: cost is
`ROUND(ST_DistanceSphere(source_geom, target_geom)::numeric / 1000, 2)` where
`d` stands for the external ST_DistanceSphere (meters); the geometry is
`ST_MakeLine(source_geom, target_geom)`.  The `reverse_cost` column does not
exist yet at insert time (step 14 adds it); it is inserted as 0 here and set
by `add_reverse_cost`. -/
def mkEdgeRow (d : Pt → Pt → ℚ) (pr : NodeOnLine × NodeOnLine) : EdgeRow :=
  { id := 0
    source := pr.1.node_id
    target := pr.2.node_id
    cost := pgRound2 (d pr.1.node_geom pr.2.node_geom / 1000)
    reverse_cost := 0
    geomA := pr.1.node_geom
    geomB := pr.2.node_geom }

/-- Rows the step-12 INSERT produces for one line. -/
def edges_of_line (d : Pt → Pt → ℚ) (l : List Pt) (nodes : List (ℕ × Pt)) : List EdgeRow :=
  (node_pairs l nodes).map (mkEdgeRow d)

/-- Serial primary keys assigned by the `network_edges` id column. -/
def withSerialIds : ℕ → List EdgeRow → List EdgeRow
  | _, [] => []
  | n, e :: es => { e with id := n } :: withSerialIds (n + 1) es

/-- The full step-12 INSERT over all lines, with serial ids. -/
def insert_network_edges (d : Pt → Pt → ℚ) (lines : List (List Pt))
    (nodes : List (ℕ × Pt)) : List EdgeRow :=
  withSerialIds 1 ((lines.map (fun l => edges_of_line d l nodes)).flatten)

/-- Step 14: `UPDATE network_edges SET reverse_cost = cost`. -/
def add_reverse_cost (es : List EdgeRow) : List EdgeRow :=
  es.map (fun e => { e with reverse_cost := e.cost })

/-- The built `network_edges` table: step-12 insert followed by the step-14
reverse-cost update. -/
def network_edges_build (d : Pt → Pt → ℚ) (lines : List (List Pt))
    (nodes : List (ℕ × Pt)) : List EdgeRow :=
  add_reverse_cost (insert_network_edges d lines nodes)

/-- One traversal step of a path: the node stepped to, the traversal cost of
the step, and the id of the edge traversed. -/
abbrev Step := ℕ × ℚ × ℕ

/-- A search label: accumulated cost from the source and the list of steps of
the path realizing it. -/
abbrev Label := ℚ × List Step

/-- Total cost of a step list (the sum of traversed edge costs). -/
def pathCost (p : List Step) : ℚ := (p.map (fun s => s.2.1)).sum

/-- Undirected adjacency derived from the edge rows, as used by both
materialized views (`directed := FALSE`): an edge is traversed
source→target at `cost` and target→source at `reverse_cost`. -/
def neighbors (E : List EdgeRow) (u : ℕ) : List Step :=
  E.foldr (fun e acc =>
    (if e.source = u then [(e.target, e.cost, e.id)] else []) ++
    (if e.target = u then [(e.source, e.reverse_cost, e.id)] else []) ++ acc) []

/-- Paths of the graph: `IsPath E u w p` holds when `p` is a step sequence
leading from `u` to `w` along traversable edges. -/
inductive IsPath (E : List EdgeRow) : ℕ → ℕ → List Step → Prop where
  | nil (v : ℕ) : IsPath E v v []
  | cons {u w : ℕ} (v : ℕ) (c : ℚ) (eid : ℕ) {rest : List Step} :
      (v, c, eid) ∈ neighbors E u → IsPath E v w rest →
      IsPath E u w ((v, c, eid) :: rest)

/-- Reachability in the undirected graph of the edge rows. -/
def Reachable (E : List EdgeRow) (s t : ℕ) : Prop := ∃ p, IsPath E s t p

/-- State of one search: discovered labels and the visited (settled) set. -/
structure SearchState where
  dist : ℕ → Option Label
  visited : List ℕ

/-- Accumulated cost of a discovered node (0 when undiscovered; only ever
read on discovered nodes). -/
def gval (st : SearchState) (v : ℕ) : ℚ :=
  match st.dist v with
  | some gp => gp.1
  | none => 0

/-- First-minimal element of a list by a key (prefers the earliest element on
ties, a deterministic tie-break for the model). -/
def minBy {α β : Type} [LinearOrder β] (key : α → β) : List α → Option α
  | [] => none
  | x :: xs =>
    match minBy key xs with
    | none => some x
    | some y => if key y < key x then some y else some x

/-- First-maximal element of a list by a key. -/
def maxBy {α β : Type} [LinearOrder β] (key : α → β) : List α → Option α
  | [] => none
  | x :: xs =>
    match maxBy key xs with
    | none => some x
    | some y => if key x < key y then some y else some x

/-- Relax one adjacency step from a node labelled `(gu, pu)`: label the
neighbor when undiscovered or strictly improved. -/
def relaxOne (dist : ℕ → Option Label) (gu : ℚ) (pu : List Step) (st : Step) :
    ℕ → Option Label :=
  fun w =>
    if w = st.1 then
      match dist st.1 with
      | none => some (gu + st.2.1, pu ++ [st])
      | some (g, p) =>
        if gu + st.2.1 < g then some (gu + st.2.1, pu ++ [st]) else some (g, p)
    else dist w

/-- Relax every adjacency step of a node labelled `(gu, pu)`. -/
def relaxAll (dist : ℕ → Option Label) (gu : ℚ) (pu : List Step) :
    List Step → (ℕ → Option Label)
  | [] => dist
  | st :: rest => relaxAll (relaxOne dist gu pu st) gu pu rest

/-- Frontier of a search state: the discovered, unvisited nodes among the
vertex list `V`. -/
def candidates (V : List ℕ) (st : SearchState) : List ℕ :=
  V.filter (fun v => decide (v ∉ st.visited) && (st.dist v).isSome)

/-- Modelled from the spec: the frontier-expansion loop of the shortest-path
engine (spec section 4.4), shared by the uniform-cost and heuristic-guided
variants; pgRouting's pgr_dijkstra / pgr_aStar are external library functions
whose code is not in this repository.  At each step it pops the unvisited
discovered node minimizing accumulated cost plus heuristic, terminates Found
when the target is popped (returning its accumulated cost and traversed
steps), relaxes its neighbors otherwise, and terminates Exhausted (`none`)
when the frontier empties. -/
def searchLoop (E : List EdgeRow) (h : ℕ → ℚ) (t : ℕ) (V : List ℕ) :
    ℕ → SearchState → Option Label
  | 0, _ => none
  | fuel + 1, st =>
    match minBy (fun v => gval st v + h v) (candidates V st) with
    | none => none
    | some u =>
      match st.dist u with
      | none => none
      | some (gu, pu) =>
        if u = t then some (gu, pu)
        else
          searchLoop E h t V fuel
            ⟨relaxAll st.dist gu pu (neighbors E u), u :: st.visited⟩

/-- Vertex list of the search: all edge endpoints together with the source
(duplicates are harmless). -/
def verticesOf (E : List EdgeRow) (s : ℕ) : List ℕ :=
  E.map (fun e => e.source) ++ E.map (fun e => e.target) ++ [s]

/-- Modelled from the spec: one whole path computation (spec section 4.4),
from the initialized state in which only the source is discovered at cost 0.
The fuel bound `|V| + 1` is sufficient because every loop iteration that does
not terminate settles a previously unvisited vertex of `V`. -/
def pgrSearch (E : List EdgeRow) (h : ℕ → ℚ) (s t : ℕ) : Option Label :=
  let V := verticesOf E s
  searchLoop E h t V (V.length + 1)
    ⟨fun v => if v = s then some (0, []) else none, []⟩

/-- Modelled from the spec: the uniform-cost variant (pgr_dijkstra, an
external pgRouting function): the heuristic is identically zero. -/
def pgr_dijkstra (E : List EdgeRow) (s t : ℕ) : Option Label :=
  pgrSearch E (fun _ => 0) s t

/-- Modelled from the spec: the heuristic-guided variant (pgr_aStar, an
external pgRouting function): frontier priority is accumulated cost plus
`h`. -/
def pgr_aStar (E : List EdgeRow) (h : ℕ → ℚ) (s t : ℕ) : Option Label :=
  pgrSearch E h s t

/-- Rows of a materialized path view: the path's traversed edges joined back
to `network_edges` by edge id (`JOIN network_edges e ON path.edge = e.id`);
an empty result (no path) yields no rows. -/
def mvRows (E : List EdgeRow) (res : Option Label) : List EdgeRow :=
  match res with
  | none => []
  | some (_, steps) => steps.filterMap (fun st => E.find? (fun e => e.id == st.2.2))

/-- Geometry of the `points` row with the least id
(`SELECT geom FROM points ORDER BY id LIMIT 1`). -/
def minIdGeom (pts : List (ℕ × Pt)) : Option Pt :=
  (minBy (fun r => r.1) pts).map (fun r => r.2)

/-- Geometry of the `points` row with the greatest id
(`SELECT geom FROM points ORDER BY id DESC LIMIT 1`). -/
def maxIdGeom (pts : List (ℕ × Pt)) : Option Pt :=
  (maxBy (fun r => r.1) pts).map (fun r => r.2)

/-- Nearest network node to a point (`ORDER BY geom <-> p LIMIT 1`), by
squared coordinate distance, earliest row on ties. -/
def nearestNode (nodes : List (ℕ × Pt)) (p : Pt) : Option ℕ :=
  (minBy (fun r => distSq r.2 p) nodes).map (fun r => r.1)

/-- Contents of the materialized view `mv_short_path` as a function of the
current `network_edges`, `network_nodes` and `points` tables: resolve the
lowest-id point to the nearest node (source), the highest-id point to the
nearest node (target), run the uniform-cost search, and join the path's
edges. -/
def mv_short_path (E : List EdgeRow) (nodes : List (ℕ × Pt))
    (pts : List (ℕ × Pt)) : List EdgeRow :=
  match minIdGeom pts, maxIdGeom pts with
  | some pa, some pb =>
    match nearestNode nodes pa, nearestNode nodes pb with
    | some s, some t => mvRows E (pgr_dijkstra E s t)
    | _, _ => []
  | _, _ => []

/-- Contents of the materialized view `mv_astar_path`, with the heuristic `h`
(pgr_aStar's internal coordinate-based heuristic, external to the
repository) as a parameter. -/
def mv_astar_path (E : List EdgeRow) (nodes : List (ℕ × Pt)) (h : ℕ → ℚ)
    (pts : List (ℕ × Pt)) : List EdgeRow :=
  match minIdGeom pts, maxIdGeom pts with
  | some pa, some pb =>
    match nearestNode nodes pa, nearestNode nodes pb with
    | some s, some t => mvRows E (pgr_aStar E h s t)
    | _, _ => []
  | _, _ => []

/-- Mutable database state owned by the backend: the serial id counter and
rows of `public.points`, and the committed contents of the two materialized
path views. -/
structure DB where
  nextId : ℕ
  points : List (ℕ × Pt)
  mvShort : List EdgeRow
  mvAstar : List EdgeRow
deriving DecidableEq, Repr

/-- A JSON member of the request body as consumed by the coarse handler
model: `point v0 v1` is a present value whose first two `Object.values`
entries both coerce to float8 parameters — well-formed `{lat, lng}` objects,
but equally malformed-but-coercible inputs such as the string "12", whose
entries '1' and '2' Postgres coerces to 1 and 2 — and `malformed` is a
present value one of whose extracted entries fails float8 coercion, which
makes the parameterized INSERT throw.  Present values yielding fewer than
two entries (e.g. `{}` or `{lon: 5}`) insert a NULL-geometry row and commit;
that shape is carried by the refined `JsonVal` model below. -/
inductive FieldVal where
  | point (v0 v1 : ℚ)
  | malformed
deriving DecidableEq, Repr

/-- The request body `{start, end}`; `none` models a missing or null
member. -/
structure ReqBody where
  start : Option FieldVal
  «end» : Option FieldVal
deriving DecidableEq, Repr

/-- ST_MakePoint(x, y). -/
def ST_MakePoint (x y : ℚ) : Pt := ⟨x, y⟩

/-- One execution of
`INSERT INTO public.points (geom) VALUES (ST_SetSRID(ST_MakePoint($2, $1), 4326))`
with parameter array `[v0, v1]`: the stored geometry is
`ST_MakePoint(v1, v0)`; a malformed value makes the query fail. -/
def insertPointRow (db : DB) (v : FieldVal) : Option DB :=
  match v with
  | .point v0 v1 =>
    some { db with
            points := db.points ++ [(db.nextId, ST_MakePoint v1 v0)]
            nextId := db.nextId + 1 }
  | .malformed => none

/-- Injected failures for the transactional steps of a submission (each flag
forces the corresponding query to fail). -/
structure FailSpec where
  connectFails : Bool
  delFails : Bool
  ins1Fails : Bool
  ins2Fails : Bool
  refreshFails : Bool
  refresh2Fails : Bool
deriving DecidableEq, Repr

/-- The no-failure oracle. -/
def noFail : FailSpec := ⟨false, false, false, false, false, false⟩

/-- HTTP responses of the backend handlers. -/
inductive Resp where
  | ok (edgeCount : ℕ) (totalDistance : ℚ)
  | okMsg
  | badRequest
  | serverError
deriving DecidableEq, Repr

/-- HTTP status code of a response. -/
def Resp.status : Resp → ℕ
  | .ok _ _ => 200
  | .okMsg => 200
  | .badRequest => 400
  | .serverError => 500

/-- SUM(cost) over view rows (`COALESCE(SUM(cost), 0)`). -/
def sumCost (rows : List EdgeRow) : ℚ := (rows.map (fun e => e.cost)).sum

/-- The transactional steps of /update-route between BEGIN and COMMIT:
DELETE FROM points, the two point INSERTs, REFRESH MATERIALIZED VIEW
mv_short_path.  `none` means some step failed (the handler then rolls the
whole transaction back). -/
def updateTxn (E : List EdgeRow) (nodes : List (ℕ × Pt)) (f : FailSpec)
    (s e : FieldVal) (db : DB) : Option DB :=
  if f.delFails then none else
  let db1 := { db with points := ([] : List (ℕ × Pt)) }
  if f.ins1Fails then none else
  match insertPointRow db1 s with
  | none => none
  | some db2 =>
    if f.ins2Fails then none else
    match insertPointRow db2 e with
    | none => none
    | some db3 =>
      if f.refreshFails then none else
      some { db3 with mvShort := mv_short_path E nodes db3.points }

/-- The /update-route handler: reject with 400 when start or end is missing,
otherwise run the transaction; on any step failure ROLLBACK and answer 500
with the state unchanged, on success COMMIT and answer the view's row count
and cost sum. -/
def updateRoute (E : List EdgeRow) (nodes : List (ℕ × Pt)) (f : FailSpec)
    (body : ReqBody) (db : DB) : DB × Resp :=
  match body.start, body.«end» with
  | some s, some e =>
    match updateTxn E nodes f s e db with
    | none => (db, .serverError)
    | some db2 => (db2, .ok db2.mvShort.length (sumCost db2.mvShort))
  | _, _ => (db, .badRequest)

/-- The transactional steps of /astar-route (identical to /update-route but
refreshing mv_astar_path). -/
def astarTxn (E : List EdgeRow) (nodes : List (ℕ × Pt)) (h : ℕ → ℚ)
    (f : FailSpec) (s e : FieldVal) (db : DB) : Option DB :=
  if f.delFails then none else
  let db1 := { db with points := ([] : List (ℕ × Pt)) }
  if f.ins1Fails then none else
  match insertPointRow db1 s with
  | none => none
  | some db2 =>
    if f.ins2Fails then none else
    match insertPointRow db2 e with
    | none => none
    | some db3 =>
      if f.refreshFails then none else
      some { db3 with mvAstar := mv_astar_path E nodes h db3.points }

/-- The /astar-route handler. -/
def astarRoute (E : List EdgeRow) (nodes : List (ℕ × Pt)) (h : ℕ → ℚ)
    (f : FailSpec) (body : ReqBody) (db : DB) : DB × Resp :=
  match body.start, body.«end» with
  | some s, some e =>
    match astarTxn E nodes h f s e db with
    | none => (db, .serverError)
    | some db2 => (db2, .ok db2.mvAstar.length (sumCost db2.mvAstar))
  | _, _ => (db, .badRequest)

/-- The clearPointsAndRefreshViews helper: acquire a client (a connection
failure is thrown to the caller), then in one transaction DELETE the points
and refresh both views; any transaction error is caught inside the helper,
the transaction is rolled back, and the error is only logged, not rethrown.
The boolean records whether the helper threw. -/
def clearPointsAndRefreshViews (E : List EdgeRow) (nodes : List (ℕ × Pt))
    (h : ℕ → ℚ) (f : FailSpec) (db : DB) : DB × Bool :=
  if f.connectFails then (db, true)
  else if f.delFails then (db, false)
  else
    let db1 := { db with points := ([] : List (ℕ × Pt)) }
    if f.refreshFails then (db, false)
    else
      let db2 := { db1 with mvShort := mv_short_path E nodes db1.points }
      if f.refresh2Fails then (db, false)
      else ({ db2 with mvAstar := mv_astar_path E nodes h db2.points }, false)

/-- The /reset-all handler: answer 500 only when the helper throws, success
otherwise. -/
def resetAll (E : List EdgeRow) (nodes : List (ℕ × Pt)) (h : ℕ → ℚ)
    (f : FailSpec) (db : DB) : DB × Resp :=
  match clearPointsAndRefreshViews E nodes h f db with
  | (db2, true) => (db2, .serverError)
  | (db2, false) => (db2, .okMsg)

/-- Refined model of one present JSON member of a compute-path request body,
distinguishing the value shapes by how `Object.values` and the parameterized
INSERT treat them (the handlers themselves never inspect the shape):
`obj2 v0 v1` is a value whose first two extracted entries both coerce to
numbers — well-formed `{lat, lng}` objects, but also malformed inputs such
as the string "12", whose entries '1' and '2' Postgres coerces to the
float8 parameters 1 and 2; `objShort` is a value yielding fewer than two
entries (e.g. `{}`, `{lon: 5}` or a number), whose missing parameters
node-postgres sends as SQL NULL; `objBad` is a value with an extracted
entry that fails float8 coercion (e.g. `{lon: "abc", lat: "def"}`), which
makes the INSERT throw. -/
inductive JsonVal where
  | obj2 (v0 v1 : ℚ)
  | objShort
  | objBad
deriving DecidableEq, Repr

/-- Geometry stored by a succeeding
`INSERT INTO public.points (geom) VALUES (ST_SetSRID(ST_MakePoint($2, $1), 4326))`
with `$1`, `$2` the first two extracted entries: `ST_MakePoint v1 v0` when
both coerce, and SQL NULL (`none`) when a parameter is NULL, since
`ST_MakePoint` is STRICT — the row is still inserted, with NULL geometry
(the `geom geometry(Point, 4326)` column is nullable). -/
def jsonGeom : JsonVal → Option Pt
  | .obj2 v0 v1 => some (ST_MakePoint v1 v0)
  | _ => none

/-- Backend state with the nullable geometry column of `public.points` kept
explicit: serial id counter, point rows whose geometry may be SQL NULL, and
the committed contents of the two materialized path views.  Same state as
`DB`, refined so that a committed NULL-geometry row is representable. -/
structure JState where
  nextId : ℕ
  rows : List (ℕ × Option Pt)
  mvShort : List EdgeRow
  mvAstar : List EdgeRow
deriving DecidableEq, Repr

/-- One point INSERT over the refined value model: an uncoercible value
makes the query throw; any other present value inserts one row (possibly
with NULL geometry) and advances the serial counter. -/
def insertPointRowJ (st : JState) (v : JsonVal) : Option JState :=
  match v with
  | .objBad => none
  | _ =>
    some { st with
            rows := st.rows ++ [(st.nextId, jsonGeom v)]
            nextId := st.nextId + 1 }

/-- The /update-route transaction over the refined value model.  The REFRESH
of mv_short_path is an explicit function parameter: over a points table that
may hold NULL geometries its contents are decided by Postgres ordering of
NULL distances in the source/target CTEs and by pgRouting, both outside this
repository; the repository code only guarantees that the REFRESH runs and
its result is committed. -/
def updateTxnJ (refreshS : List (ℕ × Option Pt) → List EdgeRow)
    (f : FailSpec) (s e : JsonVal) (st : JState) : Option JState :=
  if f.delFails then none else
  let st1 := { st with rows := ([] : List (ℕ × Option Pt)) }
  if f.ins1Fails then none else
  match insertPointRowJ st1 s with
  | none => none
  | some st2 =>
    if f.ins2Fails then none else
    match insertPointRowJ st2 e with
    | none => none
    | some st3 =>
      if f.refreshFails then none else
      some { st3 with mvShort := refreshS st3.rows }

/-- The /update-route handler over the refined value model — the same
control flow as `updateRoute`: only the null check rejects with 400; a
transaction step failure rolls back and answers 500 with the state
unchanged; success commits and answers the refreshed view's row count and
cost sum. -/
def updateRouteJ (refreshS : List (ℕ × Option Pt) → List EdgeRow)
    (f : FailSpec) (bs be : Option JsonVal) (st : JState) : JState × Resp :=
  match bs, be with
  | some s, some e =>
    match updateTxnJ refreshS f s e st with
    | none => (st, .serverError)
    | some st2 => (st2, .ok st2.mvShort.length (sumCost st2.mvShort))
  | _, _ => (st, .badRequest)

/-- The /astar-route transaction over the refined value model (identical to
`updateTxnJ` but refreshing mv_astar_path). -/
def astarTxnJ (refreshA : List (ℕ × Option Pt) → List EdgeRow)
    (f : FailSpec) (s e : JsonVal) (st : JState) : Option JState :=
  if f.delFails then none else
  let st1 := { st with rows := ([] : List (ℕ × Option Pt)) }
  if f.ins1Fails then none else
  match insertPointRowJ st1 s with
  | none => none
  | some st2 =>
    if f.ins2Fails then none else
    match insertPointRowJ st2 e with
    | none => none
    | some st3 =>
      if f.refreshFails then none else
      some { st3 with mvAstar := refreshA st3.rows }

/-- The /astar-route handler over the refined value model. -/
def astarRouteJ (refreshA : List (ℕ × Option Pt) → List EdgeRow)
    (f : FailSpec) (bs be : Option JsonVal) (st : JState) : JState × Resp :=
  match bs, be with
  | some s, some e =>
    match astarTxnJ refreshA f s e st with
    | none => (st, .serverError)
    | some st2 => (st2, .ok st2.mvAstar.length (sumCost st2.mvAstar))
  | _, _ => (st, .badRequest)

/-- Shared concrete database state for witnesses and counterexamples. -/
def exDb : DB :=
  { nextId := 10
    points := [(1, ⟨5, 5⟩)]
    mvShort := [⟨1, 1, 2, 1, 1, ⟨0, 0⟩, ⟨0, 1⟩⟩]
    mvAstar := [⟨2, 3, 4, 1, 1, ⟨10, 0⟩, ⟨10, 1⟩⟩] }

/-- Invariant of the search loop relative to graph `E`, vertex list `V` and
source `s`: labels are sound (each records a real path and its cost), the
source keeps its zero label, labels only mention vertices of `V`, and every
visited node is labelled, optimally labelled, and has all its adjacency steps
relaxed. -/
structure SearchInv (E : List EdgeRow) (V : List ℕ) (s : ℕ)
    (st : SearchState) : Prop where
  sound : ∀ v g p, st.dist v = some (g, p) → IsPath E s v p ∧ pathCost p = g
  src : st.dist s = some (0, [])
  inV : ∀ v, (st.dist v).isSome = true → v ∈ V
  visLabeled : ∀ v ∈ st.visited, (st.dist v).isSome = true
  visOpt : ∀ v ∈ st.visited, ∀ g p, st.dist v = some (g, p) →
    ∀ q, IsPath E s v q → g ≤ pathCost q
  relaxed : ∀ u ∈ st.visited, ∀ gu pu, st.dist u = some (gu, pu) →
    ∀ stp ∈ neighbors E u, ∃ gv pv, st.dist stp.1 = some (gv, pv) ∧
      gv ≤ gu + stp.2.1

/-- Concrete chain graph 1 —(cost 1)— 2 —(cost 1)— 3 for the C2 witness
(the spec's A, B, C scenario). -/
def exE2 : List EdgeRow :=
  [⟨1, 1, 2, 1, 1, ⟨0, 0⟩, ⟨0, 1⟩⟩, ⟨2, 2, 3, 1, 1, ⟨0, 1⟩, ⟨0, 2⟩⟩]

/-- Concrete consistent heuristic towards node 3 for the C2 witness. -/
def exH : ℕ → ℚ := fun v => if v = 3 then 0 else if v = 2 then 1 else 2

/-- Concrete disconnected graph: 1 — 2 and 3 — 4 in separate components. -/
def exE6 : List EdgeRow :=
  [⟨1, 1, 2, 1, 1, ⟨0, 0⟩, ⟨0, 1⟩⟩, ⟨2, 3, 4, 1, 1, ⟨10, 0⟩, ⟨10, 1⟩⟩]

/-- Concrete node table for the disconnected graph. -/
def exNodes6 : List (ℕ × Pt) :=
  [(1, ⟨0, 0⟩), (2, ⟨0, 1⟩), (3, ⟨10, 0⟩), (4, ⟨10, 1⟩)]

theorem mem_distinctOnGeomAux (p : Pt) :
    ∀ (l : List Pt) (seen : List Pt),
      p ∈ distinctOnGeomAux seen l ↔ (p ∈ l ∧ p ∉ seen) := by
  intro l
  induction l with
  | nil => intro seen; simp [distinctOnGeomAux]
  | cons q ps ih =>
    intro seen
    by_cases hq : q ∈ seen
    · rw [distinctOnGeomAux, if_pos hq, ih]
      constructor
      · rintro ⟨hp, hns⟩
        exact ⟨List.mem_cons_of_mem _ hp, hns⟩
      · rintro ⟨hp, hns⟩
        rcases List.mem_cons.mp hp with rfl | hp
        · exact absurd hq hns
        · exact ⟨hp, hns⟩
    · rw [distinctOnGeomAux, if_neg hq]
      rw [List.mem_cons, ih]
      constructor
      · rintro (rfl | ⟨hp, hns⟩)
        · exact ⟨List.mem_cons_self _ _, hq⟩
        · exact ⟨List.mem_cons_of_mem _ hp,
            fun hs => hns (List.mem_cons_of_mem _ hs)⟩
      · rintro ⟨hp, hns⟩
        rcases List.mem_cons.mp hp with rfl | hp
        · exact Or.inl rfl
        · by_cases hpq : p = q
          · exact Or.inl hpq
          · exact Or.inr ⟨hp, fun hs => by
              rcases List.mem_cons.mp hs with h | h
              · exact hpq h
              · exact hns h⟩

theorem nodup_distinctOnGeomAux :
    ∀ (l : List Pt) (seen : List Pt), (distinctOnGeomAux seen l).Nodup := by
  intro l
  induction l with
  | nil => intro seen; simp [distinctOnGeomAux]
  | cons q ps ih =>
    intro seen
    by_cases hq : q ∈ seen
    · rw [distinctOnGeomAux, if_pos hq]; exact ih seen
    · rw [distinctOnGeomAux, if_neg hq]
      refine List.nodup_cons.mpr ⟨?_, ih (q :: seen)⟩
      intro hmem
      exact ((mem_distinctOnGeomAux q ps (q :: seen)).mp hmem).2
        (List.mem_cons_self _ _)

/-- C3 (amended): node deduplication merges candidate coordinates exactly when
they are exactly equal: the built node set contains each candidate coordinate
(once) and no two distinct nodes have equal coordinates; merging is not
performed up to the tolerance epsilon. -/
theorem dedup_exact_equality (cands : List Pt) :
    (distinctOnGeom cands).Nodup ∧
    (∀ p : Pt, p ∈ distinctOnGeom cands ↔ p ∈ cands) := by
  refine ⟨nodup_distinctOnGeomAux cands [], fun p => ?_⟩
  rw [distinctOnGeom, mem_distinctOnGeomAux]
  simp

/-- C3 (counterexample): two candidate coordinates at distance 1/20000 — below
the tolerance epsilon = 1/10000 — are not merged: both survive deduplication as
distinct nodes within epsilon of each other, contradicting the claim that no
two Nodes of the built graph are within epsilon of each other. -/
theorem dedup_eps_counterexample :
    (distinctOnGeom [⟨0, 0⟩, ⟨0, 1/20000⟩]).length = 2 ∧
    (⟨0, 0⟩ : Pt) ≠ ⟨0, 1/20000⟩ ∧
    distSq ⟨0, 0⟩ ⟨0, 1/20000⟩ < epsTol * epsTol := by
  refine ⟨by with_unfolding_all decide, by with_unfolding_all decide,
    by with_unfolding_all decide⟩

theorem mem_withSerialIds :
    ∀ (es : List EdgeRow) (n : ℕ) (e : EdgeRow), e ∈ withSerialIds n es →
      ∃ eo ∈ es, e = { eo with id := e.id } := by
  intro es
  induction es with
  | nil => intro n e he; simp [withSerialIds] at he
  | cons e0 rest ih =>
    intro n e he
    rw [withSerialIds, List.mem_cons] at he
    rcases he with rfl | he
    · exact ⟨e0, List.mem_cons_self _ _, rfl⟩
    · obtain ⟨eo, hmem, heq⟩ := ih (n + 1) e he
      exact ⟨eo, List.mem_cons_of_mem _ hmem, heq⟩

/-- C5: every edge of the built network has cost equal to the (external)
sphere distance `d` between its two endpoint geometries, divided by 1000
(meters to kilometers) and rounded to 2 decimals, and its reverse cost equal
to its cost. -/
theorem edge_cost_geodesic_rounded (d : Pt → Pt → ℚ) (lines : List (List Pt))
    (nodes : List (ℕ × Pt)) (e : EdgeRow)
    (he : e ∈ network_edges_build d lines nodes) :
    e.cost = pgRound2 (d e.geomA e.geomB / 1000) ∧ e.reverse_cost = e.cost := by
  rw [network_edges_build, add_reverse_cost, List.mem_map] at he
  obtain ⟨e1, he1, rfl⟩ := he
  rw [insert_network_edges] at he1
  obtain ⟨e2, he2, heq⟩ := mem_withSerialIds _ _ _ he1
  rw [List.mem_flatten] at he2
  obtain ⟨grp, hgrp, he3⟩ := he2
  rw [List.mem_map] at hgrp
  obtain ⟨l, _, rfl⟩ := hgrp
  rw [edges_of_line, List.mem_map] at he3
  obtain ⟨pr, _, rfl⟩ := he3
  have hc : e1.cost = (mkEdgeRow d pr).cost := by rw [heq]
  have ha : e1.geomA = (mkEdgeRow d pr).geomA := by rw [heq]
  have hb : e1.geomB = (mkEdgeRow d pr).geomB := by rw [heq]
  refine ⟨?_, rfl⟩
  show e1.cost = pgRound2 (d e1.geomA e1.geomB / 1000)
  rw [hc, ha, hb]
  simp [mkEdgeRow]

/-- Sphere-distance stub used by the C5 witness: a constant 111 km in
meters. -/
def dConst : Pt → Pt → ℚ := fun _ _ => 111000

/-- Concrete one-segment line and its two endpoint nodes. -/
def exLine : List Pt := [⟨0, 0⟩, ⟨1, 0⟩]

/-- Concrete nodes for the C5 witness. -/
def exNodes5 : List (ℕ × Pt) := [(1, ⟨0, 0⟩), (2, ⟨1, 0⟩)]

theorem edge_cost_geodesic_rounded_witness :
    (⟨1, 1, 2, 111, 111, ⟨0, 0⟩, ⟨1, 0⟩⟩ : EdgeRow) ∈
        network_edges_build dConst [exLine] exNodes5 ∧
    (111 : ℚ) = pgRound2 (dConst ⟨0, 0⟩ ⟨1, 0⟩ / 1000) := by
  have hmem : (⟨1, 1, 2, 111, 111, ⟨0, 0⟩, ⟨1, 0⟩⟩ : EdgeRow) ∈
      network_edges_build dConst [exLine] exNodes5 := by
    with_unfolding_all decide
  exact ⟨hmem,
    (edge_cost_geodesic_rounded dConst [exLine] exNodes5 _ hmem).1⟩

theorem bestSegAux_spec (p : Pt) :
    ∀ (segs : List (Pt × Pt)) (i j : ℕ) (t : ℚ) (c : Pt),
      bestSegAux p i segs = some (j, t, c) →
      ∃ ab ∈ segs, t = segParam ab.1 ab.2 p ∧ c = segClosest ab.1 ab.2 p := by
  intro segs
  induction segs with
  | nil => intro i j t c h; simp [bestSegAux] at h
  | cons ab rest ih =>
    intro i j t c h
    simp only [bestSegAux] at h
    split at h
    · simp only [Option.some.injEq, Prod.mk.injEq] at h
      exact ⟨ab, List.mem_cons_self _ _, h.2.1.symm, h.2.2.symm⟩
    · rename_i r hrec
      split at h
      · obtain ⟨j0, u0, c0⟩ := r
        simp only [Option.some.injEq, Prod.mk.injEq] at h
        obtain ⟨rfl, rfl, rfl⟩ := h
        obtain ⟨ab2, hmem, ht, hc⟩ := ih (i + 1) _ _ _ hrec
        exact ⟨ab2, List.mem_cons_of_mem _ hmem, ht, hc⟩
      · simp only [Option.some.injEq, Prod.mk.injEq] at h
        exact ⟨ab, List.mem_cons_self _ _, h.2.1.symm, h.2.2.symm⟩

theorem distSq_self (p : Pt) : distSq p p = 0 := by
  simp [distSq]

theorem onLine_dwithin (l : List Pt) (p : Pt)
    (hcl : ST_ClosestPoint l p = some p) : ST_DWithin_line l p epsTol = true := by
  rw [ST_ClosestPoint] at hcl
  cases hbest : bestSegAux p 0 (segsOf l) with
  | none => rw [hbest] at hcl; simp at hcl
  | some r =>
    obtain ⟨j, t, c⟩ := r
    rw [hbest] at hcl
    simp only [Option.map_some', Option.some.injEq] at hcl
    obtain ⟨ab, hmem, -, hc⟩ := bestSegAux_spec p (segsOf l) 0 j t c hbest
    rw [ST_DWithin_line, List.any_eq_true]
    refine ⟨ab, hmem, ?_⟩
    rw [← hc, hcl, distSq_self]
    simp only [decide_eq_true_eq, epsTol]
    norm_num

theorem mem_node_on_line (l : List Pt) (nodes : List (ℕ × Pt)) (nl : NodeOnLine) :
    nl ∈ node_on_line l nodes ↔
      ((nl.node_id, nl.node_geom) ∈ nodes ∧
       ST_ClosestPoint l nl.node_geom = some nl.node_geom ∧
       ST_LineLocatePoint l nl.node_geom = some nl.fraction) := by
  rw [node_on_line, List.mem_filterMap]
  constructor
  · rintro ⟨r, hr, hf⟩
    by_cases hcond :
        (ST_DWithin_line l r.2 epsTol && decide (ST_ClosestPoint l r.2 = some r.2)) = true
    · rw [if_pos hcond] at hf
      rw [Option.map_eq_some'] at hf
      obtain ⟨fr, hfr, heq⟩ := hf
      rw [Bool.and_eq_true, decide_eq_true_eq] at hcond
      subst heq
      exact ⟨by simpa using hr, hcond.2, hfr⟩
    · rw [if_neg hcond] at hf
      cases hf
  · rintro ⟨hmem, hclosest, hloc⟩
    refine ⟨(nl.node_id, nl.node_geom), hmem, ?_⟩
    have hdw := onLine_dwithin l nl.node_geom hclosest
    have hcond :
        (ST_DWithin_line l nl.node_geom epsTol &&
          decide (ST_ClosestPoint l nl.node_geom = some nl.node_geom)) = true := by
      rw [Bool.and_eq_true, decide_eq_true_eq]
      exact ⟨hdw, hclosest⟩
    rw [if_pos hcond, hloc]
    simp

theorem consecPairs_length {α : Type} : ∀ l : List α, (consecPairs l).length = l.length - 1 := by
  intro l
  induction l with
  | nil => rfl
  | cons a tail ih =>
    cases tail with
    | nil => rfl
    | cons b rest =>
      simp only [consecPairs, List.length_cons]
      rw [ih]
      simp

/-- C4 (amended): for each line the builder considers exactly the nodes whose
closest-point projection onto the line is the node itself (i.e. nodes lying
exactly on the line; being within the 0.0001 tolerance but off the line is
not sufficient), pairs each with its normalized projection fraction, sorts
them by fraction ascending, and emits one edge per consecutive pair of the
sorted order; a line with fewer than two associated nodes yields zero edges
rather than an error. -/
theorem topology_builder_on_line (d : Pt → Pt → ℚ) (l : List Pt)
    (nodes : List (ℕ × Pt)) :
    (∀ nl : NodeOnLine, nl ∈ node_on_line l nodes ↔
      ((nl.node_id, nl.node_geom) ∈ nodes ∧
       ST_ClosestPoint l nl.node_geom = some nl.node_geom ∧
       ST_LineLocatePoint l nl.node_geom = some nl.fraction)) ∧
    (ordered_nodes l nodes).Perm (node_on_line l nodes) ∧
    (ordered_nodes l nodes).Sorted fracLe ∧
    (edges_of_line d l nodes).map (fun e => (e.source, e.target)) =
      (consecPairs (ordered_nodes l nodes)).map
        (fun pr => (pr.1.node_id, pr.2.node_id)) ∧
    (edges_of_line d l nodes).length = (node_on_line l nodes).length - 1 ∧
    ((node_on_line l nodes).length < 2 → edges_of_line d l nodes = []) := by
  refine ⟨mem_node_on_line l nodes, List.perm_insertionSort fracLe _,
    List.sorted_insertionSort fracLe _, ?_, ?_, ?_⟩
  · rw [edges_of_line, node_pairs, List.map_map]
    rfl
  · rw [edges_of_line, List.length_map, node_pairs, consecPairs_length,
      ordered_nodes, List.length_insertionSort]
  · intro hlt
    rw [edges_of_line, node_pairs]
    have hlen : (ordered_nodes l nodes).length < 2 := by
      rw [ordered_nodes, List.length_insertionSort]
      exact hlt
    have : consecPairs (ordered_nodes l nodes) = [] := by
      cases hon : ordered_nodes l nodes with
      | nil => rfl
      | cons a tail =>
        cases tail with
        | nil => rfl
        | cons b rest =>
          rw [hon] at hlen
          exact absurd hlen (by simp)
    rw [this]
    rfl

theorem topology_builder_on_line_witness :
    edges_of_line dConst exLine [(1, ⟨0, 0⟩)] = [] :=
  (topology_builder_on_line dConst exLine [(1, ⟨0, 0⟩)]).2.2.2.2.2
    (by with_unfolding_all decide)

/-- C4 (counterexample): on the unit segment from (0,0) to (1,0), a node at
(1/2, 1/20000) lies within the 0.0001 tolerance of the line but not on it, so
the builder excludes it: only the two exactly-on-line endpoint nodes are
considered and a single direct edge is emitted, where the claim predicts the
within-tolerance node participates (two edges through it). -/
theorem node_on_line_eps_counterexample :
    ST_DWithin_line exLine ⟨1/2, 1/20000⟩ epsTol = true ∧
    (node_on_line exLine [(1, ⟨0, 0⟩), (2, ⟨1/2, 1/20000⟩), (3, ⟨1, 0⟩)]).map
      (fun nl => nl.node_id) = [1, 3] ∧
    (edges_of_line dConst exLine
      [(1, ⟨0, 0⟩), (2, ⟨1/2, 1/20000⟩), (3, ⟨1, 0⟩)]).length = 1 := by
  refine ⟨by with_unfolding_all decide, by with_unfolding_all decide,
    by with_unfolding_all decide⟩

theorem minIdGeom_pair (n : ℕ) (p q : Pt) :
    minIdGeom [(n, p), (n + 1, q)] = some p := by
  have h1 : ¬ ((n + 1 : ℕ) < n) := by omega
  simp [minIdGeom, minBy, h1]

theorem maxIdGeom_pair (n : ℕ) (p q : Pt) :
    maxIdGeom [(n, p), (n + 1, q)] = some q := by
  have h2 : (n : ℕ) < n + 1 := by omega
  simp [maxIdGeom, maxBy, h2]

/-- C1: for either algorithm's submission, a failure of any transactional
step (clearing the points, registering the two points, refreshing the view)
answers 500 with the whole state — in particular the previously committed
view contents — unchanged, and the transaction fails exactly on an injected
step failure or a malformed point; on success the response carries the new
view's row count and cost sum, the submitted algorithm's view is replaced by
the recomputed contents, and the other algorithm's view is untouched. -/
theorem submitQuery_transactional_atomicity (E : List EdgeRow)
    (nodes : List (ℕ × Pt)) (hA : ℕ → ℚ) (f : FailSpec) (s e : FieldVal)
    (db : DB) :
    (updateTxn E nodes f s e db = none →
      updateRoute E nodes f ⟨some s, some e⟩ db = (db, Resp.serverError)) ∧
    (∀ db2, updateTxn E nodes f s e db = some db2 →
      updateRoute E nodes f ⟨some s, some e⟩ db =
        (db2, Resp.ok db2.mvShort.length (sumCost db2.mvShort)) ∧
      db2.mvShort = mv_short_path E nodes db2.points ∧
      db2.mvAstar = db.mvAstar) ∧
    (updateTxn E nodes f s e db = none ↔
      (f.delFails = true ∨ f.ins1Fails = true ∨ f.ins2Fails = true ∨
       f.refreshFails = true ∨ s = FieldVal.malformed ∨
       e = FieldVal.malformed)) ∧
    (astarTxn E nodes hA f s e db = none →
      astarRoute E nodes hA f ⟨some s, some e⟩ db = (db, Resp.serverError)) ∧
    (∀ db2, astarTxn E nodes hA f s e db = some db2 →
      astarRoute E nodes hA f ⟨some s, some e⟩ db =
        (db2, Resp.ok db2.mvAstar.length (sumCost db2.mvAstar)) ∧
      db2.mvAstar = mv_astar_path E nodes hA db2.points ∧
      db2.mvShort = db.mvShort) := by
  obtain ⟨cf, df, i1, i2, rf, r2⟩ := f
  cases df <;> cases i1 <;> cases i2 <;> cases rf <;> cases s <;> cases e <;>
    simp_all [updateTxn, updateRoute, astarTxn, astarRoute, insertPointRow]

theorem submitQuery_transactional_atomicity_witness :
    updateTxn [] [] ⟨false, false, false, false, true, false⟩
        (FieldVal.point 1 2) (FieldVal.point 3 4) exDb = none ∧
    updateRoute [] [] ⟨false, false, false, false, true, false⟩
        ⟨some (FieldVal.point 1 2), some (FieldVal.point 3 4)⟩ exDb =
      (exDb, Resp.serverError) := by
  refine ⟨rfl, ?_⟩
  exact (submitQuery_transactional_atomicity [] [] (fun _ => 0)
    ⟨false, false, false, false, true, false⟩ (FieldVal.point 1 2)
    (FieldVal.point 3 4) exDb).1 rfl

/-- On bodies whose members are coercible pairs, the refined handler model
agrees with the coarse one: with the coarse state lifted by wrapping every
row geometry in `some` and the REFRESH parameter instantiated to the coarse
view recomputation over the non-NULL rows, `updateTxnJ` succeeds or fails
exactly with `updateTxn` and produces the lifted state. -/
theorem updateTxnJ_agrees_updateTxn (E : List EdgeRow)
    (nodes : List (ℕ × Pt)) (f : FailSpec) (a0 a1 b0 b1 : ℚ) (db : DB) :
    updateTxnJ
        (fun rows => mv_short_path E nodes
          (rows.filterMap (fun r => (r.2).map (fun g => (r.1, g)))))
        f (JsonVal.obj2 a0 a1) (JsonVal.obj2 b0 b1)
        ⟨db.nextId, db.points.map (fun r => (r.1, some r.2)),
          db.mvShort, db.mvAstar⟩ =
      (updateTxn E nodes f (FieldVal.point a0 a1) (FieldVal.point b0 b1)
          db).map
        (fun db2 => ⟨db2.nextId, db2.points.map (fun r => (r.1, some r.2)),
          db2.mvShort, db2.mvAstar⟩) := by
  obtain ⟨cf, df, i1, i2, rf, r2⟩ := f
  cases df <;> cases i1 <;> cases i2 <;> cases rf <;>
    simp [updateTxnJ, updateTxn, insertPointRowJ, insertPointRow, jsonGeom]

/-- C7 (amended): the handlers' only input validation is the null check.  A
compute-path request whose start or end member is missing (null or absent)
is answered 400 with the state untouched, for either algorithm; every
present value, well-formed or malformed, passes into the transaction and is
never answered 400.  Whenever an answer is 500 the state is fully rolled
back.  When neither present value is uncoercible, both INSERTs succeed (a
value with fewer than two extracted entries inserts a NULL-geometry row; a
coercible malformed value such as the string "12" inserts the coerced
point) and, absent injected step failures, the transaction COMMITS with a
200 response and the registered query points ARE mutated to exactly the two
inserted rows; only a value whose extracted entry fails float8 coercion
makes an INSERT throw, and that request is answered 500 after a full
rollback, leaving no partial effects. -/
theorem input_validation_null_check_only
    (refreshS refreshA : List (ℕ × Option Pt) → List EdgeRow) (f : FailSpec)
    (bs be : Option JsonVal) (st : JState) :
    ((bs = none ∨ be = none) →
      updateRouteJ refreshS f bs be st = (st, Resp.badRequest) ∧
      astarRouteJ refreshA f bs be st = (st, Resp.badRequest) ∧
      Resp.badRequest.status = 400) ∧
    (∀ s e, bs = some s → be = some e →
      (updateRouteJ refreshS f bs be st).2 ≠ Resp.badRequest ∧
      (astarRouteJ refreshA f bs be st).2 ≠ Resp.badRequest) ∧
    ((updateRouteJ refreshS f bs be st).2 = Resp.serverError →
      (updateRouteJ refreshS f bs be st).1 = st) ∧
    ((astarRouteJ refreshA f bs be st).2 = Resp.serverError →
      (astarRouteJ refreshA f bs be st).1 = st) ∧
    (∀ s e, bs = some s → be = some e → s ≠ JsonVal.objBad →
        e ≠ JsonVal.objBad →
      updateRouteJ refreshS noFail bs be st =
        ({ nextId := st.nextId + 1 + 1
           rows := [(st.nextId, jsonGeom s), (st.nextId + 1, jsonGeom e)]
           mvShort := refreshS
             [(st.nextId, jsonGeom s), (st.nextId + 1, jsonGeom e)]
           mvAstar := st.mvAstar },
         Resp.ok
           (refreshS
             [(st.nextId, jsonGeom s), (st.nextId + 1, jsonGeom e)]).length
           (sumCost (refreshS
             [(st.nextId, jsonGeom s), (st.nextId + 1, jsonGeom e)]))) ∧
      (Resp.ok
           (refreshS
             [(st.nextId, jsonGeom s), (st.nextId + 1, jsonGeom e)]).length
           (sumCost (refreshS
             [(st.nextId, jsonGeom s),
               (st.nextId + 1, jsonGeom e)]))).status = 200) ∧
    (∀ s e, bs = some s → be = some e → s ≠ JsonVal.objBad →
        e ≠ JsonVal.objBad →
      astarRouteJ refreshA noFail bs be st =
        ({ nextId := st.nextId + 1 + 1
           rows := [(st.nextId, jsonGeom s), (st.nextId + 1, jsonGeom e)]
           mvShort := st.mvShort
           mvAstar := refreshA
             [(st.nextId, jsonGeom s), (st.nextId + 1, jsonGeom e)] },
         Resp.ok
           (refreshA
             [(st.nextId, jsonGeom s), (st.nextId + 1, jsonGeom e)]).length
           (sumCost (refreshA
             [(st.nextId, jsonGeom s), (st.nextId + 1, jsonGeom e)])))) ∧
    (∀ s e, bs = some s → be = some e →
        (s = JsonVal.objBad ∨ e = JsonVal.objBad) →
      updateRouteJ refreshS noFail bs be st = (st, Resp.serverError) ∧
      astarRouteJ refreshA noFail bs be st = (st, Resp.serverError) ∧
      Resp.serverError.status = 500) := by
  refine ⟨?_, ?_, ?_, ?_, ?_, ?_, ?_⟩
  · rintro (rfl | rfl)
    · exact ⟨rfl, rfl, rfl⟩
    · cases bs <;> exact ⟨rfl, rfl, rfl⟩
  · rintro s e rfl rfl
    constructor
    · cases htxn : updateTxnJ refreshS f s e st <;>
        simp [updateRouteJ, htxn]
    · cases htxn : astarTxnJ refreshA f s e st <;>
        simp [astarRouteJ, htxn]
  · intro hresp
    rcases bs with _ | s
    · rfl
    rcases be with _ | e
    · rfl
    rcases htxn : updateTxnJ refreshS f s e st with _ | st2 <;>
      simp [updateRouteJ, htxn] at hresp ⊢
  · intro hresp
    rcases bs with _ | s
    · rfl
    rcases be with _ | e
    · rfl
    rcases htxn : astarTxnJ refreshA f s e st with _ | st2 <;>
      simp [astarRouteJ, htxn] at hresp ⊢
  · rintro s e rfl rfl hs he
    refine ⟨?_, rfl⟩
    cases s <;> cases e <;>
      first
        | rfl
        | exact absurd rfl hs
        | exact absurd rfl he
  · rintro s e rfl rfl hs he
    cases s <;> cases e <;>
      first
        | rfl
        | exact absurd rfl hs
        | exact absurd rfl he
  · rintro s e rfl rfl (rfl | rfl)
    · exact ⟨rfl, rfl, rfl⟩
    · cases s <;> exact ⟨rfl, rfl, rfl⟩

/-- Witness for the C7 amended theorem at a concrete malformed request:
start `{}` (no extracted entries, both parameters sent as NULL) and end the
string "12" (entries coerced to 1 and 2): both INSERTs succeed, the
transaction commits, and the handler answers 200 with the points table
holding a NULL-geometry start row and the coerced end point. -/
theorem input_validation_null_check_only_witness :
    updateRouteJ (fun _ => []) noFail (some JsonVal.objShort)
        (some (JsonVal.obj2 1 2)) ⟨10, [], [], []⟩ =
      (⟨12, [(10, none), (11, some (ST_MakePoint 2 1))], [], []⟩,
        Resp.ok 0 0) := by
  have h := (input_validation_null_check_only (fun _ => []) (fun _ => [])
      noFail (some JsonVal.objShort) (some (JsonVal.obj2 1 2))
      ⟨10, [], [], []⟩).2.2.2.2.1 JsonVal.objShort (JsonVal.obj2 1 2)
      rfl rfl (by decide) (by decide)
  rw [h.1]
  with_unfolding_all rfl

/-- C7 (counterexample): a present but malformed start — `{}`, which yields
no extracted entries, so both INSERT parameters are sent as SQL NULL — is
not rejected with 400 and does mutate state: both INSERTs succeed (the
start row with NULL geometry), the transaction COMMITS and the handler
answers 200 with the registered query points replaced by the two new rows;
this refutes both the 400 rejection and the absence of state mutation
asserted by the original claim. -/
theorem malformed_commit_counterexample :
    updateRouteJ (fun _ => []) noFail (some JsonVal.objShort)
        (some (JsonVal.obj2 0 0)) ⟨10, [], [], []⟩ =
      (⟨12, [(10, none), (11, some (ST_MakePoint 0 0))], [], []⟩,
        Resp.ok 0 0) ∧
    Resp.ok 0 0 ≠ Resp.badRequest ∧ (Resp.ok 0 0).status = 200 ∧
    ([(10, (none : Option Pt)), (11, some (ST_MakePoint 0 0))] :
        List (ℕ × Option Pt)) ≠ [] := by
  refine ⟨by with_unfolding_all rfl, by simp, rfl, by simp⟩

/-- C8 (code divergence): a /reset-all request during which a REFRESH
MATERIALIZED VIEW step fails is answered 200 Success, not 500: the helper
clearPointsAndRefreshViews catches the transaction error itself, rolls back
and only logs it, so the handler's 500 branch is unreachable for transaction
failures (it fires only when acquiring the connection throws). -/
theorem resetAll_swallows_failure :
    resetAll [] [] (fun _ => 0) ⟨false, false, false, false, true, false⟩
        exDb = (exDb, Resp.okMsg) ∧
    Resp.okMsg.status = 200 ∧ Resp.okMsg ≠ Resp.serverError := by
  refine ⟨rfl, rfl, by decide⟩

/-- C9 (amended): for a valid submission the two registered query points are
the request's start and end values with the coordinate roles determined by
`ST_MakePoint($2, $1)` over the object's values in insertion order: the
stored geometry's x is the point's SECOND member value and its y the FIRST
member value (for the documented `{lon, lat}` member order this swaps the
coordinates; the frontend actually sends `{lat, lng}` objects, for which the
stored geometry is correct). -/
theorem registered_point_coords (E : List EdgeRow) (nodes : List (ℕ × Pt))
    (hA : ℕ → ℚ) (f : FailSpec) (a0 a1 b0 b1 : ℚ) (db : DB) :
    (∀ db2, updateTxn E nodes f (FieldVal.point a0 a1) (FieldVal.point b0 b1)
        db = some db2 →
      db2.points.map (fun r => r.2) =
        [ST_MakePoint a1 a0, ST_MakePoint b1 b0]) ∧
    (∀ db2, astarTxn E nodes hA f (FieldVal.point a0 a1)
        (FieldVal.point b0 b1) db = some db2 →
      db2.points.map (fun r => r.2) =
        [ST_MakePoint a1 a0, ST_MakePoint b1 b0]) := by
  obtain ⟨cf, df, i1, i2, rf, r2⟩ := f
  cases df <;> cases i1 <;> cases i2 <;> cases rf <;>
    simp_all [updateTxn, astarTxn, insertPointRow]

theorem registered_point_coords_witness :
    updateTxn [] [] noFail (FieldVal.point 5 6) (FieldVal.point 7 8) exDb =
      some ⟨12, [(10, ST_MakePoint 6 5), (11, ST_MakePoint 8 7)], [],
        [⟨2, 3, 4, 1, 1, ⟨10, 0⟩, ⟨10, 1⟩⟩]⟩ ∧
    (⟨12, [(10, ST_MakePoint 6 5), (11, ST_MakePoint 8 7)], [],
        [⟨2, 3, 4, 1, 1, ⟨10, 0⟩, ⟨10, 1⟩⟩]⟩ : DB).points.map (fun r => r.2) =
      [ST_MakePoint 6 5, ST_MakePoint 8 7] := by
  refine ⟨rfl, ?_⟩
  exact (registered_point_coords [] [] (fun _ => 0) noFail 5 6 7 8 exDb).1
    ⟨12, [(10, ST_MakePoint 6 5), (11, ST_MakePoint 8 7)], [],
      [⟨2, 3, 4, 1, 1, ⟨10, 0⟩, ⟨10, 1⟩⟩]⟩ rfl

/-- C9 (counterexample): at the documented input shape, start = {lon: 1,
lat: 2} (member values in insertion order 1, 2), the stored geometry is
ST_MakePoint(2, 1) — x = 2 = latitude, y = 1 = longitude — not the claimed
x = longitude = 1, y = latitude = 2. -/
theorem point_coord_swap_counterexample :
    (updateTxn [] [] noFail (FieldVal.point 1 2) (FieldVal.point 1 2)
        exDb).map (fun d => d.points.map (fun r => r.2)) =
      some [ST_MakePoint 2 1, ST_MakePoint 2 1] ∧
    ST_MakePoint 2 1 ≠ ST_MakePoint 1 2 := by
  refine ⟨rfl, by decide⟩

/-- C10: after a successful submission of either algorithm exactly two query
points are registered — the start point first with the lower serial id, the
end point second with the higher id — so lowest-id resolution (the source
CTE) yields the start geometry and highest-id resolution (the target CTE)
yields the end geometry. -/
theorem two_points_min_max (E : List EdgeRow) (nodes : List (ℕ × Pt))
    (hA : ℕ → ℚ) (f : FailSpec) (a0 a1 b0 b1 : ℚ) (db : DB) :
    (∀ db2, updateTxn E nodes f (FieldVal.point a0 a1) (FieldVal.point b0 b1)
        db = some db2 →
      db2.points = [(db.nextId, ST_MakePoint a1 a0),
                    (db.nextId + 1, ST_MakePoint b1 b0)] ∧
      minIdGeom db2.points = some (ST_MakePoint a1 a0) ∧
      maxIdGeom db2.points = some (ST_MakePoint b1 b0)) ∧
    (∀ db2, astarTxn E nodes hA f (FieldVal.point a0 a1)
        (FieldVal.point b0 b1) db = some db2 →
      db2.points = [(db.nextId, ST_MakePoint a1 a0),
                    (db.nextId + 1, ST_MakePoint b1 b0)] ∧
      minIdGeom db2.points = some (ST_MakePoint a1 a0) ∧
      maxIdGeom db2.points = some (ST_MakePoint b1 b0)) := by
  obtain ⟨cf, df, i1, i2, rf, r2⟩ := f
  cases df <;> cases i1 <;> cases i2 <;> cases rf <;>
    simp_all [updateTxn, astarTxn, insertPointRow, minIdGeom_pair,
      maxIdGeom_pair]

theorem two_points_min_max_witness :
    updateTxn [] [] noFail (FieldVal.point 1 2) (FieldVal.point 3 4) exDb =
      some ⟨12, [(10, ST_MakePoint 2 1), (11, ST_MakePoint 4 3)], [],
        [⟨2, 3, 4, 1, 1, ⟨10, 0⟩, ⟨10, 1⟩⟩]⟩ ∧
    minIdGeom [(10, ST_MakePoint 2 1), (11, ST_MakePoint 4 3)] =
      some (ST_MakePoint 2 1) ∧
    maxIdGeom [(10, ST_MakePoint 2 1), (11, ST_MakePoint 4 3)] =
      some (ST_MakePoint 4 3) := by
  have h := (two_points_min_max [] [] (fun _ => 0) noFail 1 2 3 4 exDb).1
    ⟨12, [(10, ST_MakePoint 2 1), (11, ST_MakePoint 4 3)], [],
      [⟨2, 3, 4, 1, 1, ⟨10, 0⟩, ⟨10, 1⟩⟩]⟩ rfl
  exact ⟨rfl, h.2.1, h.2.2⟩


theorem neighbors_cons (e : EdgeRow) (es : List EdgeRow) (u : ℕ) :
    neighbors (e :: es) u =
      (if e.source = u then [(e.target, e.cost, e.id)] else []) ++
      ((if e.target = u then [(e.source, e.reverse_cost, e.id)] else []) ++
        neighbors es u) := by
  simp [neighbors]

theorem mem_neighbors (E : List EdgeRow) (u : ℕ) (stp : Step) :
    stp ∈ neighbors E u ↔ ∃ e ∈ E,
      (e.source = u ∧ stp = (e.target, e.cost, e.id)) ∨
      (e.target = u ∧ stp = (e.source, e.reverse_cost, e.id)) := by
  induction E with
  | nil => simp [neighbors]
  | cons e es ih =>
    rw [neighbors_cons]
    simp only [List.mem_append, ih, List.exists_mem_cons_iff]
    constructor
    · rintro (h | h | h)
      · by_cases h1 : e.source = u
        · rw [if_pos h1] at h
          simp only [List.mem_singleton] at h
          exact Or.inl (Or.inl ⟨h1, h⟩)
        · rw [if_neg h1] at h
          cases h
      · by_cases h2 : e.target = u
        · rw [if_pos h2] at h
          simp only [List.mem_singleton] at h
          exact Or.inl (Or.inr ⟨h2, h⟩)
        · rw [if_neg h2] at h
          cases h
      · exact Or.inr h
    · rintro ((⟨h1, hstp⟩ | ⟨h2, hstp⟩) | h)
      · left
        rw [if_pos h1]
        simp [hstp]
      · right; left
        rw [if_pos h2]
        simp [hstp]
      · right; right; exact h

theorem neighbors_cost_nonneg (E : List EdgeRow) (u : ℕ)
    (hnn : ∀ e ∈ E, 0 ≤ e.cost ∧ 0 ≤ e.reverse_cost) :
    ∀ stp ∈ neighbors E u, 0 ≤ stp.2.1 := by
  intro stp hm
  rw [mem_neighbors] at hm
  obtain ⟨e, he, hc | hc⟩ := hm
  · rw [hc.2]; exact (hnn e he).1
  · rw [hc.2]; exact (hnn e he).2

theorem neighbors_mem_vertices (E : List EdgeRow) (s u : ℕ) :
    ∀ stp ∈ neighbors E u, stp.1 ∈ verticesOf E s := by
  intro stp hm
  rw [mem_neighbors] at hm
  obtain ⟨e, he, hc | hc⟩ := hm <;> rw [hc.2] <;>
    simp only [verticesOf, List.mem_append, List.mem_map]
  · exact Or.inl (Or.inr ⟨e, he, rfl⟩)
  · exact Or.inl (Or.inl ⟨e, he, rfl⟩)

theorem pathCost_cons (stp : Step) (p : List Step) :
    pathCost (stp :: p) = stp.2.1 + pathCost p := by
  simp [pathCost]

theorem pathCost_snoc (p : List Step) (stp : Step) :
    pathCost (p ++ [stp]) = pathCost p + stp.2.1 := by
  simp [pathCost]

theorem isPath_snoc {E : List EdgeRow} {s u : ℕ} {p : List Step}
    (hp : IsPath E s u p) {stp : Step} (hst : stp ∈ neighbors E u) :
    IsPath E s stp.1 (p ++ [stp]) := by
  induction hp with
  | nil w =>
    simpa using IsPath.cons stp.1 stp.2.1 stp.2.2 (by simpa using hst)
      (IsPath.nil stp.1)
  | cons v c eid hm hrest ih =>
    exact IsPath.cons v c eid hm (ih hst)

theorem pathCost_nonneg {E : List EdgeRow} {s v : ℕ} {p : List Step}
    (hnn : ∀ e ∈ E, 0 ≤ e.cost ∧ 0 ≤ e.reverse_cost)
    (hp : IsPath E s v p) : 0 ≤ pathCost p := by
  induction hp with
  | nil w => simp [pathCost]
  | cons v c eid hm hrest ih =>
    rw [pathCost_cons]
    have := neighbors_cost_nonneg E _ hnn _ hm
    linarith

theorem heuristic_telescope {E : List EdgeRow} {h : ℕ → ℚ}
    (hcons : ∀ u stp, stp ∈ neighbors E u → h u ≤ stp.2.1 + h stp.1)
    {v w : ℕ} {p : List Step} (hp : IsPath E v w p) :
    h v ≤ pathCost p + h w := by
  induction hp with
  | nil z => simp [pathCost]
  | cons v2 c eid hm hrest ih =>
    have h1 := hcons _ _ hm
    rw [pathCost_cons]
    simp only at h1
    linarith

theorem minBy_cons_isSome {α β : Type} [LinearOrder β] (key : α → β)
    (a : α) (l : List α) : ∃ z, minBy key (a :: l) = some z := by
  cases hrec : minBy key l with
  | none => exact ⟨a, by simp [minBy, hrec]⟩
  | some y =>
    by_cases hlt : key y < key a
    · exact ⟨y, by simp [minBy, hrec, hlt]⟩
    · exact ⟨a, by simp [minBy, hrec, hlt]⟩

theorem minBy_mem {α β : Type} [LinearOrder β] (key : α → β) :
    ∀ (l : List α) (x : α), minBy key l = some x → x ∈ l := by
  intro l
  induction l with
  | nil => intro x h; simp [minBy] at h
  | cons a as ih =>
    intro x h
    cases hrec : minBy key as with
    | none =>
      simp only [minBy, hrec, Option.some.injEq] at h
      subst h
      exact List.mem_cons_self _ _
    | some y =>
      by_cases hlt : key y < key a
      · simp only [minBy, hrec, if_pos hlt, Option.some.injEq] at h
        subst h
        exact List.mem_cons_of_mem _ (ih y hrec)
      · simp only [minBy, hrec, if_neg hlt, Option.some.injEq] at h
        subst h
        exact List.mem_cons_self _ _

theorem minBy_le {α β : Type} [LinearOrder β] (key : α → β) :
    ∀ (l : List α) (x : α), minBy key l = some x →
      ∀ y ∈ l, key x ≤ key y := by
  intro l
  induction l with
  | nil => intro x h; simp [minBy] at h
  | cons a as ih =>
    intro x h y hy
    cases hrec : minBy key as with
    | none =>
      simp only [minBy, hrec, Option.some.injEq] at h
      subst h
      rcases List.mem_cons.mp hy with rfl | hy2
      · exact le_refl _
      · cases as with
        | nil => cases hy2
        | cons b bs =>
          obtain ⟨z, hz⟩ := minBy_cons_isSome key b bs
          rw [hz] at hrec
          exact Option.noConfusion hrec
    | some z =>
      by_cases hlt : key z < key a
      · simp only [minBy, hrec, if_pos hlt, Option.some.injEq] at h
        subst h
        rcases List.mem_cons.mp hy with rfl | hy2
        · exact hlt.le
        · exact ih _ hrec y hy2
      · simp only [minBy, hrec, if_neg hlt, Option.some.injEq] at h
        subst h
        rcases List.mem_cons.mp hy with rfl | hy2
        · exact le_refl _
        · exact le_trans (not_lt.mp hlt) (ih z hrec y hy2)

theorem mem_candidates (V : List ℕ) (st : SearchState) (v : ℕ) :
    v ∈ candidates V st ↔
      (v ∈ V ∧ v ∉ st.visited ∧ (st.dist v).isSome = true) := by
  simp [candidates, List.mem_filter, and_assoc]

theorem relaxOne_cases (dist : ℕ → Option Label) (gu : ℚ) (pu : List Step)
    (stp : Step) (w : ℕ) :
    relaxOne dist gu pu stp w = dist w ∨
    (w = stp.1 ∧
      relaxOne dist gu pu stp w = some (gu + stp.2.1, pu ++ [stp]) ∧
      ∀ g p, dist w = some (g, p) → gu + stp.2.1 < g) := by
  by_cases hw : w = stp.1
  · subst hw
    cases hd : dist stp.1 with
    | none =>
      right
      refine ⟨rfl, by simp [relaxOne, hd], ?_⟩
      intro g p h
      exact Option.noConfusion h
    | some gp =>
      obtain ⟨g0, p0⟩ := gp
      by_cases hlt : gu + stp.2.1 < g0
      · right
        refine ⟨rfl, by simp [relaxOne, hd, hlt], ?_⟩
        intro g p h
        simp only [Option.some.injEq, Prod.mk.injEq] at h
        rw [← h.1]
        exact hlt
      · left
        simp [relaxOne, hd, hlt]
  · left
    simp [relaxOne, hw]

theorem relaxAll_cases (gu : ℚ) (pu : List Step) :
    ∀ (nbrs : List Step) (dist : ℕ → Option Label) (w : ℕ),
      relaxAll dist gu pu nbrs w = dist w ∨
      (∃ stp ∈ nbrs, w = stp.1 ∧
        relaxAll dist gu pu nbrs w = some (gu + stp.2.1, pu ++ [stp]) ∧
        ∀ g p, dist w = some (g, p) → gu + stp.2.1 < g) := by
  intro nbrs
  induction nbrs with
  | nil => intro dist w; left; rfl
  | cons stp rest ih =>
    intro dist w
    rcases ih (relaxOne dist gu pu stp) w with h | ⟨stp2, hmem, hw, heq, hb⟩
    · rcases relaxOne_cases dist gu pu stp w with h1 | ⟨hw1, heq1, hb1⟩
      · left
        show relaxAll (relaxOne dist gu pu stp) gu pu rest w = dist w
        rw [h, h1]
      · right
        exact ⟨stp, List.mem_cons_self _ _, hw1,
          by show relaxAll (relaxOne dist gu pu stp) gu pu rest w = _
             rw [h, heq1], hb1⟩
    · right
      refine ⟨stp2, List.mem_cons_of_mem _ hmem, hw,
        by show relaxAll (relaxOne dist gu pu stp) gu pu rest w = _
           exact heq, ?_⟩
      intro g p hdw
      rcases relaxOne_cases dist gu pu stp w with h1 | ⟨hw1, heq1, hb1⟩
      · exact hb g p (h1.trans hdw)
      · have h2 := hb _ _ heq1
        have h3 := hb1 g p hdw
        linarith

theorem relaxAll_mono (gu : ℚ) (pu : List Step) (nbrs : List Step)
    (dist : ℕ → Option Label) (w : ℕ) (g : ℚ) (p : List Step)
    (hdw : dist w = some (g, p)) :
    ∃ g2 p2, relaxAll dist gu pu nbrs w = some (g2, p2) ∧ g2 ≤ g := by
  rcases relaxAll_cases gu pu nbrs dist w with h | ⟨stp, -, -, heq, hb⟩
  · exact ⟨g, p, by rw [h, hdw], le_refl g⟩
  · exact ⟨gu + stp.2.1, pu ++ [stp], heq, (hb g p hdw).le⟩

theorem relaxOne_self_le (dist : ℕ → Option Label) (gu : ℚ) (pu : List Step)
    (stp : Step) :
    ∃ g p, relaxOne dist gu pu stp stp.1 = some (g, p) ∧ g ≤ gu + stp.2.1 := by
  cases hd : dist stp.1 with
  | none => exact ⟨gu + stp.2.1, pu ++ [stp], by simp [relaxOne, hd], le_refl _⟩
  | some gp =>
    obtain ⟨g0, p0⟩ := gp
    by_cases hlt : gu + stp.2.1 < g0
    · exact ⟨gu + stp.2.1, pu ++ [stp], by simp [relaxOne, hd, hlt], le_refl _⟩
    · exact ⟨g0, p0, by simp [relaxOne, hd, hlt], not_lt.mp hlt⟩

theorem relaxAll_bound (gu : ℚ) (pu : List Step) :
    ∀ (nbrs : List Step) (dist : ℕ → Option Label) (stp : Step),
      stp ∈ nbrs →
      ∃ g2 p2, relaxAll dist gu pu nbrs stp.1 = some (g2, p2) ∧
        g2 ≤ gu + stp.2.1 := by
  intro nbrs
  induction nbrs with
  | nil => intro dist stp h; cases h
  | cons stp0 rest ih =>
    intro dist stp hmem
    rcases List.mem_cons.mp hmem with rfl | hmem2
    · obtain ⟨g1, p1, heq1, hle1⟩ := relaxOne_self_le dist gu pu stp
      obtain ⟨g2, p2, heq2, hle2⟩ :=
        relaxAll_mono gu pu rest (relaxOne dist gu pu stp) stp.1 g1 p1 heq1
      exact ⟨g2, p2,
        by show relaxAll (relaxOne dist gu pu stp) gu pu rest stp.1 = _
           exact heq2, le_trans hle2 hle1⟩
    · obtain ⟨g2, p2, heq2, hle2⟩ := ih (relaxOne dist gu pu stp0) stp hmem2
      exact ⟨g2, p2,
        by show relaxAll (relaxOne dist gu pu stp0) gu pu rest stp.1 = _
           exact heq2, hle2⟩

theorem searchInv_init (E : List EdgeRow) (V : List ℕ) (s : ℕ) (hsV : s ∈ V) :
    SearchInv E V s ⟨fun v => if v = s then some (0, []) else none, []⟩ := by
  refine ⟨?_, ?_, ?_, ?_, ?_, ?_⟩
  · intro v g p hv
    by_cases hvs : v = s
    · subst hvs
      have h2 : some ((0 : ℚ), ([] : List Step)) = some (g, p) := by
        simpa using hv
      simp only [Option.some.injEq, Prod.mk.injEq] at h2
      rw [← h2.1, ← h2.2]
      exact ⟨IsPath.nil v, rfl⟩
    · simp [hvs] at hv
  · simp
  · intro v hv
    by_cases hvs : v = s
    · subst hvs; exact hsV
    · simp [hvs] at hv
  · intro v hv
    simp at hv
  · intro v hv
    simp at hv
  · intro v hv
    simp at hv

theorem frontier_cover {E : List EdgeRow} {V : List ℕ} {s : ℕ}
    {st : SearchState} (hInv : SearchInv E V s st) :
    ∀ {a w : ℕ} {q : List Step}, IsPath E a w q →
      ∀ (B ga : ℚ) (pa : List Step), a ∈ st.visited →
        st.dist a = some (ga, pa) → ga ≤ B → w ∉ st.visited →
        ∃ v gv pv q2, v ∉ st.visited ∧ st.dist v = some (gv, pv) ∧
          IsPath E v w q2 ∧ gv + pathCost q2 ≤ B + pathCost q := by
  intro a w q hq
  induction hq with
  | nil z =>
    intro B ga pa ha hda hB hw
    exact absurd ha hw
  | cons v c eid hm hrest ih =>
    intro B ga pa ha hda hB hw
    obtain ⟨gy, py, hdy, hley0⟩ := hInv.relaxed _ ha _ _ hda (v, c, eid) hm
    have hley : gy ≤ ga + c := by simpa using hley0
    by_cases hv : v ∈ st.visited
    · obtain ⟨v2, gv2, pv2, q22, h1, h2, h3, h4⟩ :=
        ih (B + c) gy py hv hdy (by linarith) hw
      refine ⟨v2, gv2, pv2, q22, h1, h2, h3, ?_⟩
      rw [pathCost_cons]
      simp only at h4 ⊢
      linarith
    · refine ⟨v, gy, py, _, hv, hdy, hrest, ?_⟩
      rw [pathCost_cons]
      simp only
      linarith

theorem frontier_start {E : List EdgeRow} {V : List ℕ} {s : ℕ}
    {st : SearchState} (hInv : SearchInv E V s st) {w : ℕ} {q : List Step}
    (hq : IsPath E s w q) (hw : w ∉ st.visited) :
    ∃ v gv pv q2, v ∉ st.visited ∧ st.dist v = some (gv, pv) ∧
      IsPath E v w q2 ∧ gv + pathCost q2 ≤ pathCost q := by
  by_cases hs : s ∈ st.visited
  · obtain ⟨v, gv, pv, q2, h1, h2, h3, h4⟩ :=
      frontier_cover hInv hq 0 0 [] hs hInv.src (le_refl 0) hw
    exact ⟨v, gv, pv, q2, h1, h2, h3, by linarith⟩
  · exact ⟨s, 0, [], q, hs, hInv.src, hq, by simp⟩

theorem pop_opt {E : List EdgeRow} {V : List ℕ} {s : ℕ} {h : ℕ → ℚ}
    {st : SearchState}
    (hcons : ∀ u stp, stp ∈ neighbors E u → h u ≤ stp.2.1 + h stp.1)
    (hInv : SearchInv E V s st) {u : ℕ}
    (hu : minBy (fun v => gval st v + h v) (candidates V st) = some u)
    {gu : ℚ} {pu : List Step} (hdu : st.dist u = some (gu, pu)) :
    ∀ q, IsPath E s u q → gu ≤ pathCost q := by
  intro q hq
  have hucand := minBy_mem _ _ _ hu
  have hunot : u ∉ st.visited := ((mem_candidates V st u).mp hucand).2.1
  obtain ⟨v, gv, pv, q2, hvnot, hdv, hq2, hbound⟩ := frontier_start hInv hq hunot
  have hvcand : v ∈ candidates V st :=
    (mem_candidates V st v).mpr
      ⟨hInv.inV v (by rw [hdv]; rfl), hvnot, by rw [hdv]; rfl⟩
  have hmin := minBy_le _ _ _ hu v hvcand
  simp only at hmin
  rw [show gval st u = gu from by simp [gval, hdu],
    show gval st v = gv from by simp [gval, hdv]] at hmin
  have htel := heuristic_telescope hcons hq2
  linarith

theorem searchInv_step {E : List EdgeRow} {V : List ℕ} {s : ℕ} {h : ℕ → ℚ}
    {st : SearchState}
    (hnn : ∀ e ∈ E, 0 ≤ e.cost ∧ 0 ≤ e.reverse_cost)
    (hcons : ∀ u stp, stp ∈ neighbors E u → h u ≤ stp.2.1 + h stp.1)
    (hVE : ∀ u stp, stp ∈ neighbors E u → stp.1 ∈ V)
    (hInv : SearchInv E V s st) {u : ℕ}
    (hu : minBy (fun v => gval st v + h v) (candidates V st) = some u)
    {gu : ℚ} {pu : List Step} (hdu : st.dist u = some (gu, pu)) :
    SearchInv E V s ⟨relaxAll st.dist gu pu (neighbors E u), u :: st.visited⟩ := by
  have hsound_u := hInv.sound u gu pu hdu
  have hopt_u := pop_opt hcons hInv hu hdu
  have hnochange : ∀ x ∈ st.visited, ∀ gx px, st.dist x = some (gx, px) →
      relaxAll st.dist gu pu (neighbors E u) x = some (gx, px) := by
    intro x hx gx px hdx
    rcases relaxAll_cases gu pu (neighbors E u) st.dist x with
      hcase | ⟨stp, hmem, hwx, heq, hb⟩
    · rw [hcase, hdx]
    · exfalso
      have hpath : IsPath E s stp.1 (pu ++ [stp]) := isPath_snoc hsound_u.1 hmem
      have hcost : pathCost (pu ++ [stp]) = gu + stp.2.1 := by
        rw [pathCost_snoc, hsound_u.2]
      have hle := hInv.visOpt x hx gx px hdx (pu ++ [stp]) (by rw [hwx]; exact hpath)
      have hlt := hb gx px hdx
      rw [hcost] at hle
      linarith
  have hnochange_u : relaxAll st.dist gu pu (neighbors E u) u = some (gu, pu) := by
    rcases relaxAll_cases gu pu (neighbors E u) st.dist u with
      hcase | ⟨stp, hmem, hwu, heq, hb⟩
    · rw [hcase, hdu]
    · exfalso
      have hlt := hb gu pu hdu
      have hc0 := neighbors_cost_nonneg E u hnn stp hmem
      linarith
  refine ⟨?_, ?_, ?_, ?_, ?_, ?_⟩
  · intro v g p hv
    dsimp only at hv
    rcases relaxAll_cases gu pu (neighbors E u) st.dist v with
      hcase | ⟨stp, hmem, hwv, heq, hb⟩
    · exact hInv.sound v g p (by rw [← hcase]; exact hv)
    · rw [heq] at hv
      simp only [Option.some.injEq, Prod.mk.injEq] at hv
      subst hwv
      rw [← hv.1, ← hv.2]
      exact ⟨isPath_snoc hsound_u.1 hmem, by rw [pathCost_snoc, hsound_u.2]⟩
  · dsimp only
    rcases relaxAll_cases gu pu (neighbors E u) st.dist s with
      hcase | ⟨stp, hmem, hws, heq, hb⟩
    · rw [hcase]; exact hInv.src
    · exfalso
      have hlt := hb 0 [] hInv.src
      have hc0 := neighbors_cost_nonneg E u hnn stp hmem
      have hgu0 : 0 ≤ gu := by
        have := pathCost_nonneg hnn hsound_u.1
        rw [hsound_u.2] at this
        exact this
      linarith
  · intro v hv
    dsimp only at hv
    rcases relaxAll_cases gu pu (neighbors E u) st.dist v with
      hcase | ⟨stp, hmem, hwv, heq, hb⟩
    · exact hInv.inV v (by rw [← hcase]; exact hv)
    · rw [hwv]; exact hVE u stp hmem
  · intro v hv
    dsimp only at hv ⊢
    rcases List.mem_cons.mp hv with rfl | hv2
    · rw [hnochange_u]; rfl
    · obtain ⟨⟨gx, px⟩, hdx⟩ :=
        Option.isSome_iff_exists.mp (hInv.visLabeled v hv2)
      rw [hnochange v hv2 gx px hdx]; rfl
  · intro v hv g p hdv q hq
    dsimp only at hv hdv
    rcases List.mem_cons.mp hv with rfl | hv2
    · rw [hnochange_u] at hdv
      simp only [Option.some.injEq, Prod.mk.injEq] at hdv
      rw [← hdv.1]
      exact hopt_u q hq
    · obtain ⟨⟨gx, px⟩, hdx⟩ :=
        Option.isSome_iff_exists.mp (hInv.visLabeled v hv2)
      rw [hnochange v hv2 gx px hdx] at hdv
      simp only [Option.some.injEq, Prod.mk.injEq] at hdv
      rw [← hdv.1]
      exact hInv.visOpt v hv2 gx px hdx q hq
  · intro x hx gx px hdx stp2 hmem2
    dsimp only at hx hdx ⊢
    rcases List.mem_cons.mp hx with rfl | hx2
    · rw [hnochange_u] at hdx
      simp only [Option.some.injEq, Prod.mk.injEq] at hdx
      obtain ⟨g2, p2, heq2, hle2⟩ :=
        relaxAll_bound gu pu (neighbors E _) st.dist stp2 hmem2
      exact ⟨g2, p2, heq2, by rw [← hdx.1]; exact hle2⟩
    · obtain ⟨⟨gx0, px0⟩, hdx0⟩ :=
        Option.isSome_iff_exists.mp (hInv.visLabeled x hx2)
      rw [hnochange x hx2 gx0 px0 hdx0] at hdx
      simp only [Option.some.injEq, Prod.mk.injEq] at hdx
      obtain ⟨gy, py, hdy, hley⟩ := hInv.relaxed x hx2 gx0 px0 hdx0 stp2 hmem2
      obtain ⟨gy2, py2, hdy2, hley2⟩ :=
        relaxAll_mono gu pu (neighbors E u) st.dist stp2.1 gy py hdy
      exact ⟨gy2, py2, hdy2, by rw [← hdx.1]; linarith⟩

theorem length_filter_impl_le (p q : ℕ → Bool)
    (hpq : ∀ x, p x = true → q x = true) :
    ∀ l : List ℕ, (l.filter p).length ≤ (l.filter q).length := by
  intro l
  induction l with
  | nil => simp
  | cons a rest ih =>
    rw [List.filter_cons, List.filter_cons]
    cases hp : p a with
    | true =>
      rw [hpq a hp]
      simpa using ih
    | false =>
      cases hq : q a with
      | true =>
        simp only [eq_self_iff_true, if_true, Bool.false_eq_true, if_false,
          List.length_cons]
        omega
      | false =>
        simpa using ih

theorem length_filter_lt {V : List ℕ} {u : ℕ} (vis : List ℕ)
    (huV : u ∈ V) (hunot : u ∉ vis) :
    (V.filter (fun v => decide (v ∉ u :: vis))).length <
      (V.filter (fun v => decide (v ∉ vis))).length := by
  induction V with
  | nil => cases huV
  | cons a rest ih =>
    by_cases hau : a = u
    · subst hau
      rw [List.filter_cons, List.filter_cons]
      have h1 : (decide (a ∉ a :: vis)) = false := by simp
      have h2 : (decide (a ∉ vis)) = true := by simpa using hunot
      rw [h1, h2]
      simp only [eq_self_iff_true, if_true, Bool.false_eq_true, if_false,
        List.length_cons]
      have hle := length_filter_impl_le (fun v => decide (v ∉ a :: vis))
        (fun v => decide (v ∉ vis))
        (fun x hx => by
          simp only [decide_eq_true_eq] at hx ⊢
          exact fun hxv => hx (List.mem_cons_of_mem _ hxv)) rest
      omega
    · have hurest : u ∈ rest := by
        rcases List.mem_cons.mp huV with h | h
        · exact absurd h.symm hau
        · exact h
      rw [List.filter_cons, List.filter_cons]
      have heq : (decide (a ∉ u :: vis)) = (decide (a ∉ vis)) := by
        simp only [List.mem_cons, decide_not]
        congr 1
        simp [hau]
      rw [heq]
      cases hd : decide (a ∉ vis) with
      | false =>
        simpa using ih hurest
      | true =>
        simp only [eq_self_iff_true, if_true, List.length_cons]
        have := ih hurest
        omega

theorem searchLoop_sound_opt {E : List EdgeRow} {h : ℕ → ℚ} {t : ℕ}
    {V : List ℕ} {s : ℕ}
    (hnn : ∀ e ∈ E, 0 ≤ e.cost ∧ 0 ≤ e.reverse_cost)
    (hcons : ∀ u stp, stp ∈ neighbors E u → h u ≤ stp.2.1 + h stp.1)
    (hVE : ∀ u stp, stp ∈ neighbors E u → stp.1 ∈ V) :
    ∀ (fuel : ℕ) (st : SearchState), SearchInv E V s st →
      ∀ g p, searchLoop E h t V fuel st = some (g, p) →
        IsPath E s t p ∧ pathCost p = g ∧
          ∀ q, IsPath E s t q → g ≤ pathCost q := by
  intro fuel
  induction fuel with
  | zero =>
    intro st hInv g p hres
    exact Option.noConfusion hres
  | succ n ih =>
    intro st hInv g p hres
    rw [searchLoop] at hres
    split at hres
    · exact Option.noConfusion hres
    · rename_i u hm
      split at hres
      · exact Option.noConfusion hres
      · rename_i gu pu hd
        split at hres
        · rename_i hut
          subst hut
          simp only [Option.some.injEq, Prod.mk.injEq] at hres
          rw [← hres.1, ← hres.2]
          exact ⟨(hInv.sound u gu pu hd).1, (hInv.sound u gu pu hd).2,
            pop_opt hcons hInv hm hd⟩
        · exact ih _ (searchInv_step hnn hcons hVE hInv hm hd) g p hres

theorem searchLoop_complete {E : List EdgeRow} {h : ℕ → ℚ} {t : ℕ}
    {V : List ℕ} {s : ℕ}
    (hnn : ∀ e ∈ E, 0 ≤ e.cost ∧ 0 ≤ e.reverse_cost)
    (hcons : ∀ u stp, stp ∈ neighbors E u → h u ≤ stp.2.1 + h stp.1)
    (hVE : ∀ u stp, stp ∈ neighbors E u → stp.1 ∈ V) :
    ∀ (fuel : ℕ) (st : SearchState), SearchInv E V s st → t ∉ st.visited →
      Reachable E s t →
      (V.filter (fun v => decide (v ∉ st.visited))).length < fuel →
      (searchLoop E h t V fuel st).isSome = true := by
  intro fuel
  induction fuel with
  | zero =>
    intro st _ _ _ hcount
    exact absurd hcount (Nat.not_lt_zero _)
  | succ n ih =>
    intro st hInv ht hreach hcount
    obtain ⟨q, hq⟩ := hreach
    obtain ⟨v, gv, pv, q2, hvnot, hdv, -, -⟩ := frontier_start hInv hq ht
    have hvcand : v ∈ candidates V st :=
      (mem_candidates V st v).mpr
        ⟨hInv.inV v (by rw [hdv]; rfl), hvnot, by rw [hdv]; rfl⟩
    obtain ⟨u, hu⟩ :
        ∃ u, minBy (fun w => gval st w + h w) (candidates V st) = some u := by
      cases hc : candidates V st with
      | nil => rw [hc] at hvcand; cases hvcand
      | cons a l => exact minBy_cons_isSome _ a l
    have hucand := minBy_mem _ _ _ hu
    have humem := (mem_candidates V st u).mp hucand
    obtain ⟨⟨gu, pu⟩, hdu⟩ := Option.isSome_iff_exists.mp humem.2.2
    rw [searchLoop]
    simp only [hu, hdu]
    by_cases hut : u = t
    · simp [hut]
    · rw [if_neg hut]
      refine ih _ (searchInv_step hnn hcons hVE hInv hu hdu) ?_ ⟨q, hq⟩ ?_
      · dsimp only
        intro hmem
        rcases List.mem_cons.mp hmem with rfl | hmem2
        · exact hut rfl
        · exact ht hmem2
      · dsimp only
        have hlt := length_filter_lt st.visited humem.1 humem.2.1
        omega

theorem pgrSearch_sound_opt (E : List EdgeRow) (h : ℕ → ℚ) (s t : ℕ)
    (hnn : ∀ e ∈ E, 0 ≤ e.cost ∧ 0 ≤ e.reverse_cost)
    (hcons : ∀ u stp, stp ∈ neighbors E u → h u ≤ stp.2.1 + h stp.1) :
    ∀ g p, pgrSearch E h s t = some (g, p) →
      IsPath E s t p ∧ pathCost p = g ∧
        ∀ q, IsPath E s t q → g ≤ pathCost q := by
  intro g p hres
  have hsV : s ∈ verticesOf E s := by simp [verticesOf]
  exact searchLoop_sound_opt hnn hcons (neighbors_mem_vertices E s) _ _
    (searchInv_init E (verticesOf E s) s hsV) g p hres

theorem pgrSearch_complete (E : List EdgeRow) (h : ℕ → ℚ) (s t : ℕ)
    (hnn : ∀ e ∈ E, 0 ≤ e.cost ∧ 0 ≤ e.reverse_cost)
    (hcons : ∀ u stp, stp ∈ neighbors E u → h u ≤ stp.2.1 + h stp.1)
    (hreach : Reachable E s t) : (pgrSearch E h s t).isSome = true := by
  have hsV : s ∈ verticesOf E s := by simp [verticesOf]
  have hcount : ((verticesOf E s).filter
      (fun v => decide (v ∉ ([] : List ℕ)))).length <
      (verticesOf E s).length + 1 := by
    have hfe : ((verticesOf E s).filter
        (fun v => decide (v ∉ ([] : List ℕ)))) = verticesOf E s :=
      List.filter_eq_self.mpr (fun a _ => by simp)
    rw [hfe]
    omega
  exact searchLoop_complete hnn hcons (neighbors_mem_vertices E s) _ _
    (searchInv_init E (verticesOf E s) s hsV) (by simp) hreach hcount

theorem hcons_zero (E : List EdgeRow)
    (hnn : ∀ e ∈ E, 0 ≤ e.cost ∧ 0 ≤ e.reverse_cost) :
    ∀ u stp, stp ∈ neighbors E u →
      (fun _ : ℕ => (0 : ℚ)) u ≤ stp.2.1 + (fun _ : ℕ => (0 : ℚ)) stp.1 := by
  intro u stp hm
  have := neighbors_cost_nonneg E u hnn stp hm
  simpa using this

theorem reachable_of_dijkstra_some (E : List EdgeRow) (s t : ℕ) (g : ℚ)
    (p : List Step) (hnn : ∀ e ∈ E, 0 ≤ e.cost ∧ 0 ≤ e.reverse_cost)
    (hres : pgr_dijkstra E s t = some (g, p)) : Reachable E s t :=
  ⟨p, (pgrSearch_sound_opt E (fun _ => 0) s t hnn (hcons_zero E hnn) g p
    hres).1⟩

theorem dijkstra_isSome_of_reachable (E : List EdgeRow) (s t : ℕ)
    (hnn : ∀ e ∈ E, 0 ≤ e.cost ∧ 0 ≤ e.reverse_cost)
    (hr : Reachable E s t) : (pgr_dijkstra E s t).isSome = true :=
  pgrSearch_complete E (fun _ => 0) s t hnn (hcons_zero E hnn) hr

/-- C2: for every (source, target) pair reachable in the graph, the
uniform-cost search and the heuristic-guided search (with a heuristic that is
consistent along traversable steps, as the spec asserts of the great-circle
heuristic) both succeed and produce an equal totalCost, each equal to the sum
of the traversed edge costs of the returned path; the two paths themselves
may differ. -/
theorem heuristic_uniform_equal_totalCost (E : List EdgeRow) (h : ℕ → ℚ)
    (s t : ℕ)
    (hnn : ∀ e ∈ E, 0 ≤ e.cost ∧ 0 ≤ e.reverse_cost)
    (hcons : ∀ u stp, stp ∈ neighbors E u → h u ≤ stp.2.1 + h stp.1)
    (hreach : Reachable E s t) :
    ∃ cd pd ca pa, pgr_dijkstra E s t = some (cd, pd) ∧
      pgr_aStar E h s t = some (ca, pa) ∧
      pathCost pd = cd ∧ pathCost pa = ca ∧ cd = ca := by
  obtain ⟨⟨cd, pd⟩, hd⟩ := Option.isSome_iff_exists.mp
    (pgrSearch_complete E (fun _ => 0) s t hnn (hcons_zero E hnn) hreach)
  obtain ⟨⟨ca, pa⟩, ha⟩ := Option.isSome_iff_exists.mp
    (pgrSearch_complete E h s t hnn hcons hreach)
  obtain ⟨hpathd, hcostd, hoptd⟩ :=
    pgrSearch_sound_opt E (fun _ => 0) s t hnn (hcons_zero E hnn) cd pd hd
  obtain ⟨hpatha, hcosta, hopta⟩ :=
    pgrSearch_sound_opt E h s t hnn hcons ca pa ha
  refine ⟨cd, pd, ca, pa, hd, ha, hcostd, hcosta, le_antisymm ?_ ?_⟩
  · rw [← hcosta]; exact hoptd pa hpatha
  · rw [← hcostd]; exact hopta pd hpathd

theorem heuristic_uniform_equal_totalCost_witness :
    ∃ cd pd ca pa, pgr_dijkstra exE2 1 3 = some (cd, pd) ∧
      pgr_aStar exE2 exH 1 3 = some (ca, pa) ∧
      pathCost pd = cd ∧ pathCost pa = ca ∧ cd = ca := by
  apply heuristic_uniform_equal_totalCost exE2 exH 1 3
  · intro e he
    simp only [exE2, List.mem_cons, List.not_mem_nil, or_false] at he
    rcases he with rfl | rfl <;> exact ⟨by norm_num, by norm_num⟩
  · intro u stp hm
    rw [mem_neighbors] at hm
    obtain ⟨e, he, hc⟩ := hm
    simp only [exE2, List.mem_cons, List.not_mem_nil, or_false] at he
    rcases he with rfl | rfl <;>
      rcases hc with ⟨h1, rfl⟩ | ⟨h1, rfl⟩ <;> rw [← h1] <;>
      with_unfolding_all decide
  · exact ⟨[(2, 1, 1), (3, 1, 2)],
      IsPath.cons 2 1 1 (by with_unfolding_all decide)
        (IsPath.cons 3 1 2 (by with_unfolding_all decide) (IsPath.nil 3))⟩

/-- C6 (amended): a valid submission whose resolved source and target nodes
are disconnected completes normally — no crash: the search returns the empty
result, the refresh succeeds, the transaction COMMITS, and the handler
answers 200 Success with edgeCount 0 and totalDistance 0; the committed view
contents are EMPTY, replacing (not preserving) the previously committed
result for that algorithm. -/
theorem disconnected_empty_commit (E : List EdgeRow) (nodes : List (ℕ × Pt))
    (a0 a1 b0 b1 : ℚ) (db : DB) (src tgt : ℕ)
    (hnn : ∀ e ∈ E, 0 ≤ e.cost ∧ 0 ≤ e.reverse_cost)
    (hsrc : nearestNode nodes (ST_MakePoint a1 a0) = some src)
    (htgt : nearestNode nodes (ST_MakePoint b1 b0) = some tgt)
    (hunreach : ¬ Reachable E src tgt) :
    updateRoute E nodes noFail
        ⟨some (FieldVal.point a0 a1), some (FieldVal.point b0 b1)⟩ db =
      (⟨db.nextId + 1 + 1,
        [(db.nextId, ST_MakePoint a1 a0), (db.nextId + 1, ST_MakePoint b1 b0)],
        [], db.mvAstar⟩, Resp.ok 0 0) := by
  have hdij : pgr_dijkstra E src tgt = none := by
    cases hres : pgr_dijkstra E src tgt with
    | none => rfl
    | some gp =>
      obtain ⟨g, p⟩ := gp
      exact absurd (reachable_of_dijkstra_some E src tgt g p hnn hres) hunreach
  have hmv : mv_short_path E nodes
      [(db.nextId, ST_MakePoint a1 a0), (db.nextId + 1, ST_MakePoint b1 b0)] =
      [] := by
    simp only [mv_short_path, minIdGeom_pair, maxIdGeom_pair, hsrc, htgt,
      hdij, mvRows]
  have hrt : updateRoute E nodes noFail
      ⟨some (FieldVal.point a0 a1), some (FieldVal.point b0 b1)⟩ db =
      (⟨db.nextId + 1 + 1,
        [(db.nextId, ST_MakePoint a1 a0), (db.nextId + 1, ST_MakePoint b1 b0)],
        mv_short_path E nodes
          [(db.nextId, ST_MakePoint a1 a0),
           (db.nextId + 1, ST_MakePoint b1 b0)],
        db.mvAstar⟩,
       Resp.ok (mv_short_path E nodes
          [(db.nextId, ST_MakePoint a1 a0),
           (db.nextId + 1, ST_MakePoint b1 b0)]).length
         (sumCost (mv_short_path E nodes
          [(db.nextId, ST_MakePoint a1 a0),
           (db.nextId + 1, ST_MakePoint b1 b0)]))) := rfl
  rw [hrt, hmv]
  rfl

theorem disconnected_empty_commit_witness :
    updateRoute exE6 exNodes6 noFail
        ⟨some (FieldVal.point 0 0), some (FieldVal.point 0 10)⟩ exDb =
      (⟨12, [(10, ST_MakePoint 0 0), (11, ST_MakePoint 10 0)], [],
        exDb.mvAstar⟩, Resp.ok 0 0) := by
  have hnone : pgr_dijkstra exE6 1 3 = none := by with_unfolding_all rfl
  have hunreach : ¬ Reachable exE6 1 3 := by
    intro hr
    have h2 := dijkstra_isSome_of_reachable exE6 1 3
      (by with_unfolding_all decide) hr
    rw [hnone] at h2
    exact Bool.noConfusion h2
  exact disconnected_empty_commit exE6 exNodes6 0 0 0 10 exDb 1 3
    (by with_unfolding_all decide) (by with_unfolding_all rfl)
    (by with_unfolding_all rfl) hunreach

/-- C6 (counterexample): on the concrete disconnected graph, a submission
resolving to nodes of different components replaces the previously committed
non-empty mv_short_path contents with the empty result and answers Success —
the previous PathResult is NOT left untouched, and an (empty) result IS
committed. -/
theorem disconnected_counterexample :
    (updateRoute exE6 exNodes6 noFail
        ⟨some (FieldVal.point 0 0), some (FieldVal.point 0 10)⟩ exDb).1.mvShort
      = [] ∧
    exDb.mvShort ≠ [] ∧
    (updateRoute exE6 exNodes6 noFail
        ⟨some (FieldVal.point 0 0), some (FieldVal.point 0 10)⟩ exDb).2 =
      Resp.ok 0 0 := by
  refine ⟨by with_unfolding_all rfl, by decide, by with_unfolding_all rfl⟩
